import Mathlib

/-!
Verification development for a reactive state container ("pulsar-store").

The store keeps a mutable tree of plain JSON-like data behind two kinds of
proxies: a tracking proxy that records every path a selector reads, and a
mutating proxy that intercepts assignments, deletions and mutating array
method calls, validates the written values, and drives a notification
pipeline.  Writes inside a transaction are accumulated and flushed as one
batch; standalone writes notify immediately and are rolled back when a
subscriber throws.

This file shallowly embeds the store (`src/index.ts`) in Lean: JS objects
become ordered association lists (JS preserves insertion order of string
keys, and that order is observable), arrays become lists, exceptions become
`Option String` error components, and the single-threaded re-entrant control
flow of the notification engine is made explicit with a fuel parameter for
the coalesced pending re-run.
-/

namespace PulsarStore

/-- JS values stored in the tree.  `vfun` is a function value, `vspecial c`
an instance of a non-plain class with constructor name `c` (Map, Date, ...).
Objects are ordered association lists, mirroring JS property order. -/
inductive Val where
  | vundef : Val
  | vnull : Val
  | vbool : Bool → Val
  | vnum : Int → Val
  | vstr : String → Val
  | varr : List Val → Val
  | vobj : List (String × Val) → Val
  | vfun : String → Val
  | vspecial : String → Val
  deriving Repr

mutual

/-- Structural equality test for `Val`. -/
def Val.beq : Val → Val → Bool
  | .vundef, .vundef => true
  | .vnull, .vnull => true
  | .vbool a, .vbool b => a == b
  | .vnum a, .vnum b => a == b
  | .vstr a, .vstr b => a == b
  | .varr xs, .varr ys => Val.beqArr xs ys
  | .vobj fs, .vobj gs => Val.beqObj fs gs
  | .vfun a, .vfun b => a == b
  | .vspecial a, .vspecial b => a == b
  | _, _ => false

/-- `Val.beq` on element lists. -/
def Val.beqArr : List Val → List Val → Bool
  | [], [] => true
  | x :: xs, y :: ys => Val.beq x y && Val.beqArr xs ys
  | _, _ => false

/-- `Val.beq` on field lists. -/
def Val.beqObj : List (String × Val) → List (String × Val) → Bool
  | [], [] => true
  | (k, v) :: fs, (l, w) :: gs => k == l && Val.beq v w && Val.beqObj fs gs
  | _, _ => false

end

mutual

theorem Val.beq_refl : ∀ a : Val, Val.beq a a = true
  | .vundef => rfl
  | .vnull => rfl
  | .vbool _ => by simp [Val.beq]
  | .vnum _ => by simp [Val.beq]
  | .vstr _ => by simp [Val.beq]
  | .varr xs => by simp [Val.beq, Val.beqArr_refl xs]
  | .vobj fs => by simp [Val.beq, Val.beqObj_refl fs]
  | .vfun _ => by simp [Val.beq]
  | .vspecial _ => by simp [Val.beq]

theorem Val.beqArr_refl : ∀ xs : List Val, Val.beqArr xs xs = true
  | [] => rfl
  | x :: xs => by simp [Val.beqArr, Val.beq_refl x, Val.beqArr_refl xs]

theorem Val.beqObj_refl : ∀ fs : List (String × Val), Val.beqObj fs fs = true
  | [] => rfl
  | (k, v) :: fs => by simp [Val.beqObj, Val.beq_refl v, Val.beqObj_refl fs]

end

mutual

theorem Val.beq_sound : ∀ a b : Val, Val.beq a b = true → a = b
  | .vundef, b => by cases b <;> simp [Val.beq]
  | .vnull, b => by cases b <;> simp [Val.beq]
  | .vbool _, b => by cases b <;> simp [Val.beq]
  | .vnum _, b => by cases b <;> simp [Val.beq]
  | .vstr _, b => by cases b <;> simp [Val.beq]
  | .varr xs, b => by
      cases b <;> simp [Val.beq]
      exact Val.beqArr_sound xs _
  | .vobj fs, b => by
      cases b <;> simp [Val.beq]
      exact Val.beqObj_sound fs _
  | .vfun _, b => by cases b <;> simp [Val.beq]
  | .vspecial _, b => by cases b <;> simp [Val.beq]

theorem Val.beqArr_sound : ∀ xs ys : List Val, Val.beqArr xs ys = true → xs = ys
  | [], ys => by cases ys <;> simp [Val.beqArr]
  | x :: xs, ys => by
      cases ys with
      | nil => simp [Val.beqArr]
      | cons y ys =>
          simp only [Val.beqArr, Bool.and_eq_true, List.cons.injEq]
          exact fun h => ⟨Val.beq_sound x y h.1, Val.beqArr_sound xs ys h.2⟩

theorem Val.beqObj_sound :
    ∀ fs gs : List (String × Val), Val.beqObj fs gs = true → fs = gs
  | [], gs => by cases gs <;> simp [Val.beqObj]
  | (k, v) :: fs, gs => by
      cases gs with
      | nil => simp [Val.beqObj]
      | cons g gs =>
          obtain ⟨l, w⟩ := g
          simp only [Val.beqObj, Bool.and_eq_true, List.cons.injEq, beq_iff_eq,
            Prod.mk.injEq]
          exact fun h => ⟨⟨h.1.1, Val.beq_sound v w h.1.2⟩, Val.beqObj_sound fs gs h.2⟩

end

theorem Val.beq_iff_eq (a b : Val) : Val.beq a b = true ↔ a = b :=
  ⟨Val.beq_sound a b, fun h => h ▸ Val.beq_refl a⟩

instance : DecidableEq Val := fun a b =>
  decidable_of_iff (Val.beq a b = true) (Val.beq_iff_eq a b)

instance : BEq Val := ⟨Val.beq⟩

instance : LawfulBEq Val where
  eq_of_beq h := Val.beq_sound _ _ h
  rfl := Val.beq_refl _

/-- Deny-listed constructor names, from `NON_SERIALIZABLE_TYPES`. -/
def nonSerializableTypes : List String :=
  ["Map", "Set", "WeakMap", "WeakSet", "Date", "RegExp", "Promise"]

/-- The error message built by `assertSerializable`. -/
def serErrMsg (name path : String) : String :=
  "Non-serializable value of type \"" ++ name ++ "\" at path \"" ++ path ++
    "\". Store only supports plain objects, arrays, and primitives."

/-- Path extension used inside `assertSerializable`:
JS `path ? path + "." + key : key` (empty string is falsy). -/
def extendPath (path key : String) : String :=
  if path = "" then key else path ++ "." ++ key

mutual

/-- `assertSerializable` from the source: rejects functions and deny-listed
class instances anywhere in the value, naming the runtime type and the
dotted path of the offender. -/
def assertSerializable : Val → String → Except String Unit
  | .vnull, _ => .ok ()
  | .vundef, _ => .ok ()
  | .vfun _, path => .error (serErrMsg "Function" path)
  | .vbool _, _ => .ok ()
  | .vnum _, _ => .ok ()
  | .vstr _, _ => .ok ()
  | .vspecial ctor, path =>
      match nonSerializableTypes.find? (fun t => t = ctor) with
      | some t => .error (serErrMsg t path)
      | none => .ok ()
  | .varr xs, path => assertSerializableArr xs path 0
  | .vobj fs, path => assertSerializableObj fs path

/-- Element loop of `assertSerializable` for arrays. -/
def assertSerializableArr : List Val → String → Nat → Except String Unit
  | [], _, _ => .ok ()
  | x :: xs, path, i =>
      match assertSerializable x (extendPath path (toString i)) with
      | .error m => .error m
      | .ok _ => assertSerializableArr xs path (i + 1)

/-- Key loop of `assertSerializable` for plain objects. -/
def assertSerializableObj : List (String × Val) → String → Except String Unit
  | [], _ => .ok ()
  | (k, v) :: fs, path =>
      match assertSerializable v (extendPath path k) with
      | .error m => .error m
      | .ok _ => assertSerializableObj fs path

end

mutual

/-- Does a value contain, at any depth, a function or a deny-listed
class instance?  (Specification-side predicate for the validator.) -/
def containsBad : Val → Bool
  | .vfun _ => true
  | .vspecial ctor => nonSerializableTypes.contains ctor
  | .varr xs => containsBadArr xs
  | .vobj fs => containsBadObj fs
  | _ => false

/-- `containsBad` over array elements. -/
def containsBadArr : List Val → Bool
  | [] => false
  | x :: xs => containsBad x || containsBadArr xs

/-- `containsBad` over object fields. -/
def containsBadObj : List (String × Val) → Bool
  | [] => false
  | (_, v) :: fs => containsBad v || containsBadObj fs

end

/-- JS `String.prototype.startsWith`: prefix test on the characters. -/
def jsStartsWith (s pre : String) : Bool :=
  pre.data.isPrefixOf s.data

/-- `isPathAffected` from the source: purely lexical containment test on the
rendered path strings. -/
def isPathAffected (accessedPath changedPath : String) : Bool :=
  if accessedPath = changedPath || jsStartsWith accessedPath (changedPath ++ ".") then
    true
  else if jsStartsWith changedPath (accessedPath ++ ".") then
    true
  else
    false

/-- `getLeafPaths` from the source: keep the paths that are not a dotted
prefix of another path in the set. -/
def getLeafPaths (paths : List String) : List String :=
  paths.filter fun path =>
    !(paths.any fun other => other != path && jsStartsWith other (path ++ "."))

/-- `pathToString`: segments joined with dots. -/
def renderPath (segs : List String) : String :=
  String.intercalate "." segs

/-- Look up a key in an ordered field list (JS property read on an object). -/
def getKey : List (String × Val) → String → Option Val
  | [], _ => none
  | (k, v) :: fs, q => if k = q then some v else getKey fs q

/-- JS property write on an object: an existing key keeps its position,
a new key is appended (JS insertion-order semantics). -/
def setKey : List (String × Val) → String → Val → List (String × Val)
  | [], q, v => [(q, v)]
  | (k, w) :: fs, q, v => if k = q then (k, v) :: fs else (k, w) :: setKey fs q v

/-- JS property deletion on an object. -/
def delKey : List (String × Val) → String → List (String × Val)
  | [], _ => []
  | (k, w) :: fs, q => if k = q then fs else (k, w) :: delKey fs q

/-- A canonical array index: JS treats `"3"` as an index but not `"03"`. -/
def arrayIndex? (seg : String) : Option Nat :=
  match seg.toNat? with
  | some i => if toString i = seg then some i else none
  | none => none

/-- JS property read (`Reflect.get` / `current[segment]`): absent keys give
`undefined`; primitives have no readable data properties in this model. -/
def jsGet (v : Val) (seg : String) : Val :=
  match v with
  | .vobj fs => (getKey fs seg).getD .vundef
  | .varr xs =>
      match arrayIndex? seg with
      | some i => (xs.get? i).getD .vundef
      | none => if seg = "length" then .vnum xs.length else .vundef
  | _ => Val.vundef

/-- JS `prop in obj`. -/
def jsHasProp (v : Val) (seg : String) : Bool :=
  match v with
  | .vobj fs => (getKey fs seg).isSome
  | .varr xs =>
      match arrayIndex? seg with
      | some i => decide (i < xs.length)
      | none => seg == "length"
  | _ => false

/-- JS `Reflect.set` on the node a proxy wraps.  Setting an out-of-range
array index extends the array with holes (modelled as `undefined`).
Assignments to exotic keys of arrays and to primitives are not exercised by
any claim and leave the node unchanged. -/
def jsSetProp (v : Val) (prop : String) (w : Val) : Val :=
  match v with
  | .vobj fs => .vobj (setKey fs prop w)
  | .varr xs =>
      match arrayIndex? prop with
      | some i =>
          if i < xs.length then .varr (xs.set i w)
          else .varr (xs ++ List.replicate (i - xs.length) .vundef ++ [w])
      | none => v
  | _ => v

/-- JS `Reflect.deleteProperty` on the node a proxy wraps.  Deleting an
array index leaves a hole (modelled as `undefined`). -/
def jsDeleteProp (v : Val) (prop : String) : Val :=
  match v with
  | .vobj fs => .vobj (delKey fs prop)
  | .varr xs =>
      match arrayIndex? prop with
      | some i => if i < xs.length then .varr (xs.set i .vundef) else v
      | none => v
  | _ => v

/-- Apply `f` to the node reached from `d` by following the proxy-get chain
`segs`.  If the chain does not resolve (a segment is missing or a non-object
is hit), the tree is unchanged: through the real proxies such a chain is
never produced. -/
def updateAt : Val → List String → (Val → Val) → Val
  | v, [], f => f v
  | v, seg :: rest, f =>
      match v with
      | .vobj fs =>
          match getKey fs seg with
          | some c => .vobj (setKey fs seg (updateAt c rest f))
          | none => v
      | .varr xs =>
          match arrayIndex? seg with
          | some i =>
              match xs.get? i with
              | some c => .varr (xs.set i (updateAt c rest f))
              | none => v
          | none => v
      | _ => v

/-- Value reached from `d` by the proxy-get chain `segs`. -/
def getValueAtSegs : Val → List String → Val
  | v, [] => v
  | v, seg :: rest => getValueAtSegs (jsGet v seg) rest

/-- Loop of `path.split(".")`: split a character list at the dots. -/
def splitDotGo : List Char → List Char → List String
  | [], acc => [⟨acc.reverse⟩]
  | c :: rest, acc =>
      if c = '.' then ⟨acc.reverse⟩ :: splitDotGo rest []
      else splitDotGo rest (c :: acc)

/-- `path.split(".")` from the source (structural, so concrete runs
evaluate). -/
def splitDot (s : String) : List String :=
  splitDotGo s.data []

/-- Loop of `getValueAtPath`: a `null`/`undefined` intermediate short-circuits
to `undefined`. -/
def getValueAtPathGo : List String → Val → Val
  | [], cur => cur
  | seg :: rest, cur =>
      match cur with
      | .vnull => .vundef
      | .vundef => .vundef
      | _ => getValueAtPathGo rest (jsGet cur seg)

/-- `getValueAtPath` from the source: split the rendered path on dots and
walk the tree. -/
def getValueAtPath (d : Val) (path : String) : Val :=
  getValueAtPathGo (splitDot path) d

/-- Loop of `setValueAtPath`: `null`/`undefined`/absent intermediate segments
are replaced by fresh empty objects. -/
def setValueAtPathGo : List String → Val → Val → Val
  | [], _, cur => cur
  | [last], value, cur => jsSetProp cur last value
  | seg :: rest, value, cur =>
      let child :=
        match jsGet cur seg with
        | .vnull => Val.vobj []
        | .vundef => Val.vobj []
        | c => c
      jsSetProp cur seg (setValueAtPathGo rest value child)

/-- `setValueAtPath` from the source. -/
def setValueAtPath (d : Val) (path : String) (value : Val) : Val :=
  setValueAtPathGo (splitDot path) value d

/-- In-place mutation of the value located at a rendered path, mirroring the
traversal of `getValueAtPath` (used for `applyChanges` array records, which
mutate the array object found at the path). -/
def updateAtPathGo : List String → (Val → Val) → Val → Val
  | [], f, cur => f cur
  | seg :: rest, f, cur =>
      match cur with
      | .vnull => cur
      | .vundef => cur
      | _ => jsSetProp cur seg (updateAtPathGo rest f (jsGet cur seg))

/-- Apply `f` at the value located at the rendered `path`. -/
def updateAtPath (d : Val) (path : String) (f : Val → Val) : Val :=
  updateAtPathGo (splitDot path) f d

/-- The mutating array methods intercepted by the proxy (`arrayMutators`). -/
def arrayMutators : List String :=
  ["push", "pop", "shift", "unshift", "splice", "sort", "reverse", "fill", "copyWithin"]

/-- Function-valued properties of a JS array (`typeof arr[m] === "function"`):
the mutators plus the common non-mutating methods.  Arbitrary names such as
`"frobnicate"` or `"length"` are not functions on an array. -/
def arrayFnProps : List String :=
  arrayMutators ++
    ["concat", "slice", "indexOf", "lastIndexOf", "includes", "join", "map",
     "filter", "forEach", "find", "findIndex", "some", "every", "reduce",
     "flat", "at", "keys", "values", "entries", "toString", "toLocaleString"]

/-- Approximate JS ToInteger for the numeric arguments of array methods
(the store only ever passes numbers through). -/
def jsToInt : Val → Int
  | .vnum n => n
  | .vbool true => 1
  | _ => 0

/-- Clamp a relative index the way `splice`/`fill` do. -/
def clampIndex (n : Int) (len : Nat) : Nat :=
  if n < 0 then ((len : Int) + n).toNat else min n.toNat len

/-- Native `Array.prototype.splice`. -/
def jsSplice (xs : List Val) (args : List Val) : List Val × Val :=
  match args with
  | [] => (xs, .varr [])
  | startV :: rest =>
      let len := xs.length
      let start := clampIndex (jsToInt startV) len
      let delCount :=
        match rest with
        | [] => len - start
        | dcV :: _ => min (max (jsToInt dcV) 0).toNat (len - start)
      let items := rest.drop 1
      let removed := (xs.drop start).take delCount
      (xs.take start ++ items ++ xs.drop (start + delCount), .varr removed)

/-- Native `Array.prototype.fill`. -/
def jsFill (xs : List Val) (args : List Val) : List Val × Val :=
  match args with
  | [] => (xs.map fun _ => Val.vundef, .varr (xs.map fun _ => Val.vundef))
  | v :: rest =>
      let len := xs.length
      let s := match rest with
        | [] => 0
        | sV :: _ => clampIndex (jsToInt sV) len
      let e := match rest.drop 1 with
        | [] => len
        | eV :: _ => clampIndex (jsToInt eV) len
      let ys := xs.mapIdx fun i x => if s ≤ i && i < e then v else x
      (ys, .varr ys)

/-- Native `Array.prototype.copyWithin`. -/
def jsCopyWithin (xs : List Val) (args : List Val) : List Val × Val :=
  let len := xs.length
  let target := clampIndex (jsToInt ((args.get? 0).getD (.vnum 0))) len
  let start := clampIndex (jsToInt ((args.get? 1).getD (.vnum 0))) len
  let stop := match args.get? 2 with
    | some eV => clampIndex (jsToInt eV) len
    | none => len
  let count := min (stop - start) (len - target)
  let ys := xs.mapIdx fun i x =>
    if target ≤ i && i < target + count then xs.getD (start + (i - target)) x else x
  (ys, .varr ys)

/-- String conversion used by the default sort comparator (approximate: the
store's claims never exercise `sort`). -/
def jsSortKey : Val → String
  | .vnum n => toString n
  | .vstr s => s
  | .vbool true => "true"
  | .vbool false => "false"
  | .vnull => "null"
  | _ => ""

/-- Insertion of one element into a sorted list (default JS comparator:
lexicographic on string conversion). -/
def sortInsert (x : Val) : List Val → List Val
  | [] => [x]
  | y :: ys => if jsSortKey x ≤ jsSortKey y then x :: y :: ys else y :: sortInsert x ys

/-- Native default `Array.prototype.sort`: `undefined` elements go last, the
rest are ordered by string conversion. -/
def jsSortArr (xs : List Val) : List Val :=
  let defined := xs.filter fun x => x != Val.vundef
  let undefs := xs.filter fun x => x == Val.vundef
  (defined.foldr sortInsert []) ++ undefs

/-- Semantics of the native mutating array methods called by the proxy and by
`applyChanges`.  Non-mutating methods leave the array unchanged; their return
value is never used by the store. -/
def applyNativeArray (method : String) (xs : List Val) (args : List Val) : List Val × Val :=
  if method = "push" then (xs ++ args, .vnum ((xs.length + args.length : Nat) : Int))
  else if method = "pop" then (xs.dropLast, xs.getLast?.getD .vundef)
  else if method = "shift" then (xs.drop 1, xs.head?.getD .vundef)
  else if method = "unshift" then (args ++ xs, .vnum ((args.length + xs.length : Nat) : Int))
  else if method = "reverse" then (xs.reverse, .varr xs.reverse)
  else if method = "splice" then jsSplice xs args
  else if method = "fill" then jsFill xs args
  else if method = "copyWithin" then jsCopyWithin xs args
  else if method = "sort" then (jsSortArr xs, .varr (jsSortArr xs))
  else (xs, .vundef)

/-- Escape one character for JSON output. -/
def jsonEscapeChar (c : Char) : List Char :=
  if c = '"' then ['\\', '"'] else if c = '\\' then ['\\', '\\'] else [c]

/-- Escape a string for JSON output (claims only use alphanumeric keys). -/
def jsonEscape (s : String) : String :=
  ⟨s.data.foldr (fun c acc => jsonEscapeChar c ++ acc) []⟩

mutual

/-- `JSON.stringify`: `undefined` and functions are omitted (`none`); object
key order is the insertion order, which is what makes it observable.
Non-plain class instances serialize as `\x7b\x7d` (enough for this model:
they never survive validation). -/
def jsonStringify : Val → Option String
  | .vundef => none
  | .vfun _ => none
  | .vnull => some "null"
  | .vbool b => some (if b then "true" else "false")
  | .vnum n => some (toString n)
  | .vstr s => some ("\"" ++ jsonEscape s ++ "\"")
  | .vspecial _ => some "\x7b\x7d"
  | .varr xs => some ("[" ++ String.intercalate "," (jsonArrParts xs) ++ "]")
  | .vobj fs => some ("\x7b" ++ String.intercalate "," (jsonObjParts fs) ++ "\x7d")

/-- Array elements in JSON: omitted values render as `null`. -/
def jsonArrParts : List Val → List String
  | [] => []
  | x :: xs => ((jsonStringify x).getD "null") :: jsonArrParts xs

/-- Object fields in JSON: fields with omitted values are skipped. -/
def jsonObjParts : List (String × Val) → List String
  | [] => []
  | (k, v) :: fs =>
      match jsonStringify v with
      | none => jsonObjParts fs
      | some s => ("\"" ++ jsonEscape k ++ "\":" ++ s) :: jsonObjParts fs

end

/-- Is a value a plain object or array (`typeof value === "object"` and
non-null, the recursion condition of both proxies)? -/
def isObjLike : Val → Bool
  | .vobj _ => true
  | .varr _ => true
  | _ => false

/-- Read chain of remaining segments once the tracking proxy has handed out
a raw primitive (no further paths are recorded there). -/
def jsGetChain : Val → List String → Val
  | cur, [] => cur
  | cur, seg :: rest => jsGetChain (jsGet cur seg) rest

/-- Evaluation of a straight-line selector `root.s₁.s₂…` through
`createTrackingProxy`: every property read on a proxied object or array
records the rendered path of the extended prefix; the value read at the end
is returned.  Reads beyond a primitive are not recorded (the proxy only
wraps objects). -/
def trackSelectorGo : Val → List String → List String → List String → List String × Val
  | cur, _, acc, [] => (acc.reverse, cur)
  | cur, pfx, acc, seg :: rest =>
      if isObjLike cur then
        let pfx2 := pfx ++ [seg]
        trackSelectorGo (jsGet cur seg) pfx2 (renderPath pfx2 :: acc) rest
      else
        (acc.reverse, jsGetChain cur (seg :: rest))

/-- Paths recorded and value computed when a selector reading the chain
`selPath` runs through a fresh tracking proxy over `d`. -/
def trackSelector (d : Val) (selPath : List String) : List String × Val :=
  trackSelectorGo d [] [] selPath

/-- A value as a selector returns it: object-valued results are fresh
tracking-proxy objects, so each evaluation carries a fresh reference id;
`Object.is` on two such results from different evaluations is `false`. -/
structure JSVal where
  val : Val
  refId : Nat
  deriving Repr, DecidableEq

/-- `Object.is` as observable on selector results: identity for object-like
values (same evaluation ⇒ same proxy), value equality for primitives. -/
def objectIs (a b : JSVal) : Bool :=
  if isObjLike a.val then isObjLike b.val && a.refId == b.refId
  else if isObjLike b.val then false
  else a.val == b.val

/-- What a value-subscription callback does when invoked.  `writeProp` is a
standalone assignment `root.parent.prop = v` issued from inside the callback
(re-entrant write). -/
inductive CbAct where
  | pure : CbAct
  | throws : String → CbAct
  | writeProp : List String → String → Val → CbAct
  deriving Repr, DecidableEq

/-- A value subscription: straight-line selector, dependency paths recorded
at the most recent evaluation, last computed value (with its reference id),
and the callback's behaviour. -/
structure Sub where
  selPath : List String
  paths : List String
  lastValue : Val
  lastId : Nat
  act : CbAct
  deriving Repr, DecidableEq

/-- A change-log subscriber either returns normally or throws. -/
inductive ChangeSub where
  | ok : ChangeSub
  | throws : String → ChangeSub
  deriving Repr, DecidableEq

/-- A change record (`PropertyChange` / `ArrayChange`). -/
inductive Change where
  | property : String → Val → Change
  | array : String → String → List Val → Change
  deriving Repr, DecidableEq

/-- The path of a change record. -/
def changePath : Change → String
  | .property p _ => p
  | .array p _ _ => p

/-- The mutable store: backing data, the two subscriber lists, the
notification re-entrancy flags, and the transaction accumulator.  `nextId`
allocates reference ids for freshly created tracking proxies. -/
structure StoreState where
  data : Val
  subs : List Sub
  changeSubs : List ChangeSub
  isNotifying : Bool
  pendingNotification : Bool
  isInTransaction : Bool
  changedPathsTx : List String
  changesTx : List Change
  nextId : Nat
  deriving Repr, DecidableEq

/-- Observable events of one run: change-log subscriber invocations, entered
notification rounds, coalesced re-entrant requests, selector re-evaluations
and value-callback invocations. -/
inductive Ev where
  | changeCb : Nat → List Change → Ev
  | roundStart : List String → Bool → Ev
  | pendingRecorded : List String → Ev
  | reeval : Nat → Val → Nat → Ev
  | cbCall : Nat → Val → Nat → Ev
  deriving Repr, DecidableEq

/-- Result of running a store operation: the new store, the observable
event log, and the propagated error (if the operation threw). -/
structure Outcome where
  st : StoreState
  log : List Ev
  err : Option String
  deriving Repr, DecidableEq

/-- JS `Set.add` on the insertion-ordered changed-path set. -/
def addPath (ps : List String) (p : String) : List String :=
  if ps.contains p then ps else ps ++ [p]

/-- Loop of `notifyChangeSubscribers`: every subscriber is invoked with the
same batch; the first throw aborts the loop and propagates. -/
def notifyChangeSubscribersGo (batch : List Change) : List ChangeSub → Nat → List Ev × Option String
  | [], _ => ([], none)
  | .ok :: rest, i =>
      let r := notifyChangeSubscribersGo batch rest (i + 1)
      (Ev.changeCb i batch :: r.1, r.2)
  | .throws m :: _, i => ([Ev.changeCb i batch], some m)

/-- `notifyChangeSubscribers` from the source: empty batches are skipped. -/
def notifyChangeSubscribers (cs : List ChangeSub) (batch : List Change) : List Ev × Option String :=
  if batch.length = 0 then ([], none) else notifyChangeSubscribersGo batch cs 0

/-- A standalone assignment issued from inside a value-subscription callback
while a notification round is in progress.  It is the `set` trap of the
mutating proxy with one simplification: because `isNotifying` is true for
the whole round, the trap's call to `notifySubscribers` always takes the
re-entrancy guard branch — it records a pending round and returns
immediately.  `setTrapReentrant_eq_setTrap` below proves this definition
equal to the full trap whenever `isNotifying` is set, which is the only
context in which the engine uses it. -/
def setTrapReentrant (st : StoreState) (parent : List String) (prop : String)
    (value : Val) : Outcome :=
  let pathStr := renderPath (parent ++ [prop])
  match assertSerializable value pathStr with
  | .error m => ⟨st, [], some m⟩
  | .ok _ =>
      let oldValue := jsGet (getValueAtSegs st.data parent) prop
      let st1 := { st with data := updateAt st.data parent fun node => jsSetProp node prop value }
      let change := Change.property pathStr value
      if st1.isInTransaction then
        ⟨{ st1 with changesTx := st1.changesTx ++ [change],
                    changedPathsTx := addPath st1.changedPathsTx pathStr }, [], none⟩
      else
        let rc := notifyChangeSubscribers st1.changeSubs [change]
        match rc.2 with
        | some e =>
            ⟨{ st1 with data := updateAt st1.data parent fun node => jsSetProp node prop oldValue },
              rc.1, some e⟩
        | none =>
            ⟨{ st1 with pendingNotification := true },
              rc.1 ++ [Ev.pendingRecorded [pathStr]], none⟩

/-- Run a value-subscription callback (invoked only while a round is in
progress; the model's callbacks ignore the value they are handed — it is
recorded in the event log instead). -/
def runCallback (st : StoreState) : CbAct → Outcome
  | .pure => ⟨st, [], none⟩
  | .throws m => ⟨st, [], some m⟩
  | .writeProp parent prop v => setTrapReentrant st parent prop v

/-- The affectedness test of one round for one subscription: choose the
path set to check — the full recorded dependency set normally, only its
leaf paths when `force` is set — and test every pair against the changed
paths. -/
def shouldNotifyB (changedPaths : List String) (force : Bool) (sub : Sub) : Bool :=
  (if force then getLeafPaths sub.paths else sub.paths).any fun a =>
    changedPaths.any fun c => isPathAffected a c

/-- The callback-firing test after a re-evaluation: the value changed per
`Object.is`, or the round is forced. -/
def firesB (force : Bool) (sub : Sub) (newVal : Val) (newId : Nat) : Bool :=
  force || !objectIs ⟨newVal, newId⟩ ⟨sub.lastValue, sub.lastId⟩

/-- The subscription record after a re-evaluation: the dependency paths are
always replaced; value and reference id are stored only when the callback
fires. -/
def reevalSub (sub : Sub) (newPaths : List String) (newVal : Val) (newId : Nat)
    (fires : Bool) : Sub :=
  if fires then { sub with paths := newPaths, lastValue := newVal, lastId := newId }
  else { sub with paths := newPaths }

/-- One notification round: visit subscriptions in insertion order starting
at index `i` with `rem` of them left.  An affected subscription is re-run
through a fresh tracking proxy (fresh reference id), its dependency paths
are replaced, and its callback fires when the value changed per `Object.is`
or when `force` is set; a callback throw aborts the loop. -/
def notifyLoop (changedPaths : List String) (force : Bool) :
    Nat → Nat → StoreState → Outcome
  | _, 0, st => ⟨st, [], none⟩
  | i, rem + 1, st =>
      match st.subs.get? i with
      | none => ⟨st, [], none⟩
      | some sub =>
          if shouldNotifyB changedPaths force sub then
            let tracked := trackSelector st.data sub.selPath
            let newVal := tracked.2
            let newId := st.nextId
            if firesB force sub newVal newId then
              let sub2 := reevalSub sub tracked.1 newVal newId true
              let stA := { st with nextId := st.nextId + 1, subs := st.subs.set i sub2 }
              let rc := runCallback stA sub.act
              match rc.err with
              | some e =>
                  ⟨rc.st, Ev.reeval i newVal newId :: Ev.cbCall i newVal newId :: rc.log, some e⟩
              | none =>
                  let rl := notifyLoop changedPaths force (i + 1) rem rc.st
                  ⟨rl.st, Ev.reeval i newVal newId :: Ev.cbCall i newVal newId :: rc.log ++ rl.log,
                    rl.err⟩
            else
              let sub2 := reevalSub sub tracked.1 newVal newId false
              let stA := { st with nextId := st.nextId + 1, subs := st.subs.set i sub2 }
              let rl := notifyLoop changedPaths force (i + 1) rem stA
              ⟨rl.st, Ev.reeval i newVal newId :: rl.log, rl.err⟩
          else
            notifyLoop changedPaths force (i + 1) rem st

/-- `notifySubscribers` from the source.  A re-entrant call (round already in
progress) records a pending round and returns at once.  Otherwise one round
runs over all subscriptions and, in the always-run cleanup, a recorded
pending round triggers one re-run with the same `changedPaths`/`force`; the
fuel bounds that unbounded recursion (the source loops forever on divergent
callback cascades). -/
def notifySubscribers (fuel : Nat) (st : StoreState) (changedPaths : List String)
    (force : Bool) : Outcome :=
  if st.isNotifying then
    ⟨{ st with pendingNotification := true }, [Ev.pendingRecorded changedPaths], none⟩
  else
    match fuel with
    | 0 => ⟨st, [], none⟩
    | f + 1 =>
        let st1 := { st with isNotifying := true }
        let r := notifyLoop changedPaths force 0 st1.subs.length st1
        let st2 := { r.st with isNotifying := false }
        if st2.pendingNotification then
          let st3 := { st2 with pendingNotification := false }
          let r2 := notifySubscribers f st3 changedPaths force
          ⟨r2.st, Ev.roundStart changedPaths force :: r.log ++ r2.log,
            match r2.err with
            | some e => some e
            | none => r.err⟩
        else
          ⟨st2, Ev.roundStart changedPaths force :: r.log, r.err⟩

/-- The `set` trap of the mutating proxy wrapping the node at `parent`:
validate, capture the old value, apply the write; inside a transaction
accumulate the change record, otherwise dispatch the single-record batch to
change-log subscribers and then one notification round, rolling the write
back via `Reflect.set` of the old value if either throws. -/
def setTrap (fuel : Nat) (st : StoreState) (parent : List String) (prop : String)
    (value : Val) : Outcome :=
  let pathStr := renderPath (parent ++ [prop])
  match assertSerializable value pathStr with
  | .error m => ⟨st, [], some m⟩
  | .ok _ =>
      let oldValue := jsGet (getValueAtSegs st.data parent) prop
      let st1 := { st with data := updateAt st.data parent fun node => jsSetProp node prop value }
      let change := Change.property pathStr value
      if st1.isInTransaction then
        ⟨{ st1 with changesTx := st1.changesTx ++ [change],
                    changedPathsTx := addPath st1.changedPathsTx pathStr }, [], none⟩
      else
        let rc := notifyChangeSubscribers st1.changeSubs [change]
        match rc.2 with
        | some e =>
            ⟨{ st1 with data := updateAt st1.data parent fun node => jsSetProp node prop oldValue },
              rc.1, some e⟩
        | none =>
            let rn := notifySubscribers fuel st1 [pathStr] false
            match rn.err with
            | some e =>
                ⟨{ rn.st with
                    data := updateAt rn.st.data parent fun node => jsSetProp node prop oldValue },
                  rc.1 ++ rn.log, some e⟩
            | none => ⟨rn.st, rc.1 ++ rn.log, none⟩

/-- The `deleteProperty` trap of the mutating proxy: absent properties are a
silent no-op; otherwise delete, record a property change with value
`undefined`, and on a subscriber throw restore the old value via
`Reflect.set` (which re-inserts the key at the end of the object). -/
def deleteTrap (fuel : Nat) (st : StoreState) (parent : List String) (prop : String) :
    Outcome :=
  let node := getValueAtSegs st.data parent
  if jsHasProp node prop then
    let pathStr := renderPath (parent ++ [prop])
    let oldValue := jsGet node prop
    let st1 := { st with data := updateAt st.data parent fun n => jsDeleteProp n prop }
    let change := Change.property pathStr .vundef
    if st1.isInTransaction then
      ⟨{ st1 with changesTx := st1.changesTx ++ [change],
                  changedPathsTx := addPath st1.changedPathsTx pathStr }, [], none⟩
    else
      let rc := notifyChangeSubscribers st1.changeSubs [change]
      match rc.2 with
      | some e =>
          ⟨{ st1 with data := updateAt st1.data parent fun n => jsSetProp n prop oldValue },
            rc.1, some e⟩
      | none =>
          let rn := notifySubscribers fuel st1 [pathStr] false
          match rn.err with
          | some e =>
              ⟨{ rn.st with
                  data := updateAt rn.st.data parent fun n => jsSetProp n prop oldValue },
                rc.1 ++ rn.log, some e⟩
          | none => ⟨rn.st, rc.1 ++ rn.log, none⟩
  else ⟨st, [], none⟩

/-- Argument validation of a mutating array method call: each argument is
checked at the synthesized sub-path `path.method(argI)`. -/
def assertArgsSerializable (pathStr method : String) : List Val → Nat → Option String
  | [], _ => none
  | a :: rest, i =>
      match assertSerializable a (pathStr ++ "." ++ method ++ "(arg" ++ toString i ++ ")") with
      | .error m => some m
      | .ok _ => assertArgsSerializable pathStr method rest (i + 1)

/-- The wrapper the array proxy returns for a mutating method: validate the
arguments, snapshot the array, apply the native method, record an array
change; on a subscriber throw restore the snapshot (`obj.length = 0` then
`obj.push(...oldArray)`). -/
def arrayMutTrap (fuel : Nat) (st : StoreState) (segs : List String) (method : String)
    (args : List Val) : Outcome :=
  let pathStr := renderPath segs
  match assertArgsSerializable pathStr method args 0 with
  | some m => ⟨st, [], some m⟩
  | none =>
      match getValueAtSegs st.data segs with
      | .varr xs =>
          let applied := applyNativeArray method xs args
          let st1 := { st with data := updateAt st.data segs fun _ => Val.varr applied.1 }
          let change := Change.array pathStr method args
          if st1.isInTransaction then
            ⟨{ st1 with changedPathsTx := addPath st1.changedPathsTx pathStr,
                        changesTx := st1.changesTx ++ [change] }, [], none⟩
          else
            let rc := notifyChangeSubscribers st1.changeSubs [change]
            match rc.2 with
            | some e =>
                ⟨{ st1 with data := updateAt st1.data segs fun _ => Val.varr xs }, rc.1, some e⟩
            | none =>
                let rn := notifySubscribers fuel st1 [pathStr] false
                match rn.err with
                | some e =>
                    ⟨{ rn.st with data := updateAt rn.st.data segs fun _ => Val.varr xs },
                      rc.1 ++ rn.log, some e⟩
                | none => ⟨rn.st, rc.1 ++ rn.log, none⟩
      | _ => ⟨st, [], none⟩

/-- A standalone write operation entering through the root mutating proxy. -/
inductive WriteOp where
  | assign : List String → String → Val → WriteOp
  | del : List String → String → WriteOp
  | arrMut : List String → String → List Val → WriteOp
  deriving Repr, DecidableEq

/-- The rendered path a write operation changes. -/
def writeOpPath : WriteOp → String
  | .assign parent prop _ => renderPath (parent ++ [prop])
  | .del parent prop => renderPath (parent ++ [prop])
  | .arrMut segs _ _ => renderPath segs

/-- Run one standalone write through the mutating proxy.  A non-mutator
method call on an array proxy is executed natively without entering the
store pipeline (no change record, no notification). -/
def runWriteOp (fuel : Nat) (st : StoreState) : WriteOp → Outcome
  | .assign parent prop v => setTrap fuel st parent prop v
  | .del parent prop => deleteTrap fuel st parent prop
  | .arrMut segs method args =>
      if arrayMutators.contains method then arrayMutTrap fuel st segs method args
      else ⟨st, [], none⟩

/-- One statement of a transaction body: a write through the proxy, or a
throw. -/
inductive Stmt where
  | write : WriteOp → Stmt
  | throwErr : String → Stmt
  deriving Repr, DecidableEq

/-- Run one body statement. -/
def runStmt (fuel : Nat) (st : StoreState) : Stmt → Outcome
  | .write op => runWriteOp fuel st op
  | .throwErr m => ⟨st, [], some m⟩

/-- Run a transaction body; the first thrown error aborts the rest. -/
def runBody (fuel : Nat) (st : StoreState) : List Stmt → Outcome
  | [] => ⟨st, [], none⟩
  | s :: rest =>
      let r := runStmt fuel st s
      match r.err with
      | some e => ⟨r.st, r.log, some e⟩
      | none =>
          let r2 := runBody fuel r.st rest
          ⟨r2.st, r.log ++ r2.log, r2.err⟩

/-- The always-run cleanup shared by `apply` and `applyChanges`: drop the
transaction flag and, if any path was recorded, dispatch the accumulated
records as one batch and the accumulated paths as one notification round,
then clear the accumulator.  A throw from the flush replaces the body's
error (JS `finally` semantics); the clearing lines are skipped on throw. -/
def txFlush (fuel : Nat) (st : StoreState) (bodyErr : Option String) :
    Outcome :=
  let st1 := { st with isInTransaction := false }
  if st1.changedPathsTx.length = 0 then ⟨st1, [], bodyErr⟩
  else
    let rc := notifyChangeSubscribers st1.changeSubs st1.changesTx
    match rc.2 with
    | some e => ⟨st1, rc.1, some e⟩
    | none =>
        let rn := notifySubscribers fuel st1 st1.changedPathsTx false
        match rn.err with
        | some e => ⟨rn.st, rc.1 ++ rn.log, some e⟩
        | none => ⟨{ rn.st with changedPathsTx := [], changesTx := [] },
            rc.1 ++ rn.log, bodyErr⟩

/-- `apply(fn)` from the source: run the body as one transaction and flush
in the always-run cleanup. -/
def applyTx (fuel : Nat) (st : StoreState) (stmts : List Stmt) :
    Outcome :=
  let st0 := { st with isInTransaction := true, changedPathsTx := [], changesTx := [] }
  let rb := runBody fuel st0 stmts
  let rf := txFlush fuel rb.st rb.err
  ⟨rf.st, rb.log ++ rf.log, rf.err⟩

/-- Application of one external change record to the backing data.
Property records validate then set by dotted path; array records look up the
value at the path and invoke the named method only when the value is an
array actually possessing that method, else they silently skip. -/
def applyOneChange (d : Val) : Change → Except String Val
  | .property path value =>
      match assertSerializable value path with
      | .error m => .error m
      | .ok _ => .ok (setValueAtPath d path value)
  | .array path method args =>
      match getValueAtPath d path with
      | .varr xs =>
          if arrayFnProps.contains method then
            .ok (updateAtPath d path fun _ => Val.varr (applyNativeArray method xs args).1)
          else .ok d
      | _ => .ok d

/-- Loop of `applyChanges`: every record — applied or skipped — is pushed to
the accumulator and its path added to the changed-path set; a validation
throw aborts the loop before recording the failing record. -/
def applyChangesLoop (st : StoreState) : List Change → StoreState × Option String
  | [] => (st, none)
  | c :: rest =>
      match applyOneChange st.data c with
      | .error m => (st, some m)
      | .ok d2 =>
          applyChangesLoop
            { st with data := d2,
                      changedPathsTx := addPath st.changedPathsTx (changePath c),
                      changesTx := st.changesTx ++ [c] }
            rest

/-- `applyChanges(changes)` from the source: run all records as one
transaction; the flush happens in the always-run cleanup. -/
def applyChangesOp (fuel : Nat) (st : StoreState) (changes : List Change) :
    Outcome :=
  if changes.length = 0 then ⟨st, [], none⟩
  else
    let st0 := { st with isInTransaction := true, changedPathsTx := [], changesTx := [] }
    let rl := applyChangesLoop st0 changes
    txFlush fuel rl.1 rl.2

/-- `trigger(selector)` from the source: evaluate the selector through a
fresh tracking proxy, reduce the recorded paths to leaf paths (the inline
loop in the source is the same algorithm as `getLeafPaths`), and force a
notification round when any leaf remains. -/
def triggerOp (fuel : Nat) (st : StoreState) (selPath : List String) :
    Outcome :=
  let tracked := trackSelector st.data selPath
  let leafs := getLeafPaths tracked.1
  if leafs.length = 0 then ⟨st, [], none⟩
  else notifySubscribers fuel st leafs true

/-- A fresh store around backing data `d`. -/
def initState (d : Val) : StoreState :=
  { data := d, subs := [], changeSubs := [], isNotifying := false,
    pendingNotification := false, isInTransaction := false,
    changedPathsTx := [], changesTx := [], nextId := 0 }

/-- `createStore(initialValue?)`: a provided initial value is validated at
path `"root"` before any store exists; an omitted one yields `\x7b\x7d`. -/
def createStore (initial : Option Val) : Except String StoreState :=
  match initial with
  | some v =>
      match assertSerializable v "root" with
      | .error m => .error m
      | .ok _ => .ok (initState v)
  | none => .ok (initState (.vobj []))

/-- The `(paths, force)` arguments of the notification rounds that actually
ran, in order. -/
def roundStarts : List Ev → List (List String × Bool)
  | [] => []
  | .roundStart ps f :: evs => (ps, f) :: roundStarts evs
  | _ :: evs => roundStarts evs

/-- The path sets of the coalesced re-entrant notification requests. -/
def pendingRecords : List Ev → List (List String)
  | [] => []
  | .pendingRecorded ps :: evs => ps :: pendingRecords evs
  | _ :: evs => pendingRecords evs

/-- Values (with reference ids) passed to value-subscription `i`'s callback. -/
def cbCallsOf (i : Nat) : List Ev → List (Val × Nat)
  | [] => []
  | .cbCall j v id :: evs =>
      if j = i then (v, id) :: cbCallsOf i evs else cbCallsOf i evs
  | _ :: evs => cbCallsOf i evs

/-- Re-evaluations of value-subscription `i` (value and reference id). -/
def reevalsOf (i : Nat) : List Ev → List (Val × Nat)
  | [] => []
  | .reeval j v id :: evs =>
      if j = i then (v, id) :: reevalsOf i evs else reevalsOf i evs
  | _ :: evs => reevalsOf i evs

/-- Batches delivered to change-log subscriber `i`. -/
def batchesOf (i : Nat) : List Ev → List (List Change)
  | [] => []
  | .changeCb j b :: evs =>
      if j = i then b :: batchesOf i evs else batchesOf i evs
  | _ :: evs => batchesOf i evs

/-- One step of a structural descent into a value: an array index, or an
object field identified by its position and key. -/
inductive PathStep where
  | idx : Nat → PathStep
  | field : Nat → String → PathStep
  deriving Repr, DecidableEq

/-- Descend one step. -/
def valAtStep : Val → PathStep → Option Val
  | .varr xs, .idx i => xs.get? i
  | .vobj fs, .field j k =>
      match fs.get? j with
      | some (k2, w) => if k2 = k then some w else none
      | none => none
  | _, _ => none

/-- Descend a sequence of steps. -/
def valAtSteps : Val → List PathStep → Option Val
  | v, [] => some v
  | v, s :: rest =>
      match valAtStep v s with
      | some w => valAtSteps w rest
      | none => none

/-- The dotted-path label of a step. -/
def stepLabel : PathStep → String
  | .idx i => toString i
  | .field _ k => k

/-- The dotted path of a descent, starting from `p`. -/
def renderSteps (p : String) (steps : List PathStep) : String :=
  steps.foldl (fun acc s => extendPath acc (stepLabel s)) p

/-- The runtime-type label the validator reports for a directly offending
value, when it is one. -/
def badLabel : Val → Option String
  | .vfun _ => some "Function"
  | .vspecial c => nonSerializableTypes.find? (fun t => t = c)
  | _ => none

/-- Does the value at a rendered path possess the named method as an array
(`Array.isArray(arr) && typeof arr[method] === "function"`)? -/
def hasArrayMethodAt (d : Val) (path method : String) : Bool :=
  match getValueAtPath d path with
  | .varr _ => arrayFnProps.contains method
  | _ => false

/-- Whether the proxy-get chain `segs` resolves all the way through actual
object keys and in-range array indices. -/
def resolvesSegs : Val → List String → Bool
  | _, [] => true
  | .vobj fs, seg :: rest =>
      match getKey fs seg with
      | some c => resolvesSegs c rest
      | none => false
  | .varr xs, seg :: rest =>
      match arrayIndex? seg with
      | some i =>
          match xs.get? i with
          | some c => resolvesSegs c rest
          | none => false
      | none => false
  | _, _ => false

/-- The state at entry to a transaction body: flag set, accumulators
cleared (the first lines of `apply` and `applyChanges`). -/
def txStart (st : StoreState) : StoreState :=
  { st with isInTransaction := true, changedPathsTx := [], changesTx := [] }

/- ## Concrete stores used by the witnesses and counterexamples -/

/-- A store whose first observer depends on `"a"` and writes `root.b` from
its callback, and whose second observer depends on `"b"`. -/
def reentrantStore : StoreState :=
  { initState (.vobj [("a", .vnum 0), ("b", .vnum 0)]) with
    subs := [
      { selPath := ["a"], paths := ["a"], lastValue := .vnum 0, lastId := 0,
        act := .writeProp [] "b" (.vnum 5) },
      { selPath := ["b"], paths := ["b"], lastValue := .vnum 0, lastId := 0,
        act := .pure }],
    changeSubs := [.ok], nextId := 1 }

/-- A store observed mid-round (`isNotifying` set). -/
def midRoundStore : StoreState :=
  { initState (.vobj [("a", .vnum 0)]) with isNotifying := true }

/-- The single observer of `"x"` used by the dependency-precision witness. -/
def precisionSub : Sub :=
  { selPath := ["x"], paths := ["x"], lastValue := .vnum 1, lastId := 0, act := .pure }

/-- A store with one observer of `"x"`, written at the unrelated `"y"`. -/
def precisionStore : StoreState :=
  { initState (.vobj [("x", .vnum 1), ("y", .vnum 2)]) with
    subs := [precisionSub], changeSubs := [.ok], nextId := 1 }

/-- A store caught at the start of a round with one stale observer of `"x"`. -/
def roundStore : StoreState :=
  { initState (.vobj [("x", .vnum 1)]) with
    isNotifying := true,
    subs := [{ selPath := ["x"], paths := ["x"], lastValue := .vnum 0, lastId := 0,
               act := .pure }],
    nextId := 1 }

/-- The up-to-date observer of `data.value` in a store over
`\x7bdata: \x7bvalue: 1, label: 2\x7d\x7d`. -/
def triggerSub0 : Sub :=
  { selPath := ["data", "value"], paths := ["data", "data.value"],
    lastValue := .vnum 1, lastId := 0, act := .pure }

/-- The up-to-date observer of `data`. -/
def triggerSub1 : Sub :=
  { selPath := ["data"], paths := ["data"],
    lastValue := .vobj [("value", .vnum 1), ("label", .vnum 2)], lastId := 0,
    act := .pure }

/-- The up-to-date observer of the sibling `data.label`. -/
def triggerSub2 : Sub :=
  { selPath := ["data", "label"], paths := ["data", "data.label"],
    lastValue := .vnum 2, lastId := 0, act := .pure }

/-- The store carrying the three observers above. -/
def triggerStore : StoreState :=
  { initState (.vobj [("data", .vobj [("value", .vnum 1), ("label", .vnum 2)])]) with
    subs := [triggerSub0, triggerSub1, triggerSub2],
    nextId := 1 }

/-- A store over `\x7ba: 1, b: 2\x7d` whose only change-log subscriber
throws (forcing the standalone-write rollback path). -/
def rollbackStore : StoreState :=
  { initState (.vobj [("a", .vnum 1), ("b", .vnum 2), ("arr", .varr [.vnum 1])]) with
    changeSubs := [.throws "boom"] }

/-- A store over `\x7ba: 1, b: 2\x7d` with no change-log subscriber and a
single stale observer of `"a"` whose callback throws (forcing the rollback
path that runs after a partially-run notification round). -/
def throwObsStore : StoreState :=
  { initState (.vobj [("a", .vnum 1), ("b", .vnum 2)]) with
    subs := [{ selPath := ["a"], paths := ["a"], lastValue := .vnum 0, lastId := 0,
               act := .throws "obsboom" }],
    nextId := 1 }

/-- All value-subscription callbacks of the store behave purely. -/
def subsPure (st : StoreState) : Prop := ∀ s ∈ st.subs, s.act = CbAct.pure

/-- Does a callback behaviour refrain from writing to the store? -/
def actNonWriting : CbAct → Bool
  | .writeProp _ _ _ => false
  | _ => true

/-- No value-subscription callback writes to the store (it may throw). -/
def subsNonWriting (st : StoreState) : Prop :=
  ∀ s ∈ st.subs, actNonWriting s.act = true

/-- All change-log subscribers return normally. -/
def changeSubsOk (st : StoreState) : Prop := ∀ c ∈ st.changeSubs, c = ChangeSub.ok

/-- Stored reference ids are in the past of the id allocator. -/
def idsFresh (st : StoreState) : Prop := ∀ s ∈ st.subs, s.lastId < st.nextId

/-- `Object.is` of a freshly produced selector value against a last value
stored by an earlier evaluation (whose reference id therefore differs). -/
def staleIs (v : Val) (s : Sub) : Bool :=
  if isObjLike v then false
  else if isObjLike s.lastValue then false
  else v == s.lastValue

/- ## Lemmas about the event extractors -/

@[simp]
theorem roundStarts_append (xs ys : List Ev) :
    roundStarts (xs ++ ys) = roundStarts xs ++ roundStarts ys := by
  induction xs with
  | nil => rfl
  | cons x xs ih => cases x <;> simp [roundStarts, ih]

@[simp]
theorem pendingRecords_append (xs ys : List Ev) :
    pendingRecords (xs ++ ys) = pendingRecords xs ++ pendingRecords ys := by
  induction xs with
  | nil => rfl
  | cons x xs ih => cases x <;> simp [pendingRecords, ih]

@[simp]
theorem cbCallsOf_append (i : Nat) (xs ys : List Ev) :
    cbCallsOf i (xs ++ ys) = cbCallsOf i xs ++ cbCallsOf i ys := by
  induction xs with
  | nil => rfl
  | cons x xs ih =>
      cases x with
      | cbCall j v id =>
          simp only [List.cons_append, cbCallsOf, ih]
          split <;> simp [ih]
      | changeCb j b => simpa [cbCallsOf] using ih
      | roundStart ps f => simpa [cbCallsOf] using ih
      | pendingRecorded ps => simpa [cbCallsOf] using ih
      | reeval j v id => simpa [cbCallsOf] using ih

@[simp]
theorem reevalsOf_append (i : Nat) (xs ys : List Ev) :
    reevalsOf i (xs ++ ys) = reevalsOf i xs ++ reevalsOf i ys := by
  induction xs with
  | nil => rfl
  | cons x xs ih =>
      cases x with
      | reeval j v id =>
          simp only [List.cons_append, reevalsOf, ih]
          split <;> simp [ih]
      | changeCb j b => simpa [reevalsOf] using ih
      | roundStart ps f => simpa [reevalsOf] using ih
      | pendingRecorded ps => simpa [reevalsOf] using ih
      | cbCall j v id => simpa [reevalsOf] using ih

@[simp]
theorem batchesOf_append (i : Nat) (xs ys : List Ev) :
    batchesOf i (xs ++ ys) = batchesOf i xs ++ batchesOf i ys := by
  induction xs with
  | nil => rfl
  | cons x xs ih =>
      cases x with
      | changeCb j b =>
          simp only [List.cons_append, batchesOf, ih]
          split <;> simp [ih]
      | roundStart ps f => simpa [batchesOf] using ih
      | pendingRecorded ps => simpa [batchesOf] using ih
      | reeval j v id => simpa [batchesOf] using ih
      | cbCall j v id => simpa [batchesOf] using ih

/-- The change-log distribution loop emits only `changeCb` events. -/
theorem ncsGo_events (batch : List Change) (cs : List ChangeSub) (i : Nat) :
    roundStarts (notifyChangeSubscribersGo batch cs i).1 = [] ∧
    pendingRecords (notifyChangeSubscribersGo batch cs i).1 = [] ∧
    (∀ k, reevalsOf k (notifyChangeSubscribersGo batch cs i).1 = []) ∧
    (∀ k, cbCallsOf k (notifyChangeSubscribersGo batch cs i).1 = []) := by
  induction cs generalizing i with
  | nil => simp [notifyChangeSubscribersGo, roundStarts, pendingRecords, reevalsOf, cbCallsOf]
  | cons c rest ih =>
      cases c with
      | ok =>
          obtain ⟨h1, h2, h3, h4⟩ := ih (i + 1)
          simp [notifyChangeSubscribersGo, roundStarts, pendingRecords, reevalsOf, cbCallsOf,
            h1, h2, h3, h4]
      | throws m =>
          simp [notifyChangeSubscribersGo, roundStarts, pendingRecords, reevalsOf, cbCallsOf]

/-- The change-log distribution emits only `changeCb` events. -/
theorem ncs_events (cs : List ChangeSub) (batch : List Change) :
    roundStarts (notifyChangeSubscribers cs batch).1 = [] ∧
    pendingRecords (notifyChangeSubscribers cs batch).1 = [] ∧
    (∀ k, reevalsOf k (notifyChangeSubscribers cs batch).1 = []) ∧
    (∀ k, cbCallsOf k (notifyChangeSubscribers cs batch).1 = []) := by
  unfold notifyChangeSubscribers
  split
  · simp [roundStarts, pendingRecords, reevalsOf, cbCallsOf]
  · exact ncsGo_events batch cs 0

/- ## The re-entrancy guard -/

/-- A call to the engine while a round is in progress records a pending
round and returns immediately: no observers run, nothing else changes. -/
theorem notifySubscribers_reentrant (fuel : Nat) (st : StoreState) (ps : List String)
    (b : Bool) (h : st.isNotifying = true) :
    notifySubscribers fuel st ps b =
      ⟨{ st with pendingNotification := true }, [Ev.pendingRecorded ps], none⟩ := by
  unfold notifySubscribers
  simp [h]

/-- The inlined re-entrant write agrees with the full `set` trap whenever a
notification round is in progress. -/
theorem setTrapReentrant_eq_setTrap (fuel : Nat) (st : StoreState) (parent : List String)
    (prop : String) (value : Val) (h : st.isNotifying = true) :
    setTrapReentrant st parent prop value = setTrap fuel st parent prop value := by
  cases hs : assertSerializable value (renderPath (parent ++ [prop])) with
  | error m => simp [setTrapReentrant, setTrap, hs]
  | ok u =>
      by_cases htx : st.isInTransaction = true
      · simp [setTrapReentrant, setTrap, hs, htx]
      · cases hc : (notifyChangeSubscribers st.changeSubs
            [Change.property (renderPath (parent ++ [prop])) value]).2 with
        | some e => simp [setTrapReentrant, setTrap, hs, htx, hc]
        | none =>
            have htx2 : st.isInTransaction = false := by simpa using htx
            have hre := notifySubscribers_reentrant fuel
              { st with data := updateAt st.data parent fun node => jsSetProp node prop value,
                        isInTransaction := false }
              [renderPath (parent ++ [prop])] false (by simpa using h)
            simp [setTrapReentrant, setTrap, hs, htx2, hc, hre]

/- ## Claim C5: the path-containment test -/

/-- Claim C5: for all rendered paths `a` (accessed) and `c` (changed),
`isPathAffected a c` returns true iff `a` equals `c`, or `c` followed by a
dot is a prefix of `a`, or `a` followed by a dot is a prefix of `c`; the
test is purely lexical on the rendered strings. -/
theorem C5_isPathAffected_lexical (a c : String) :
    isPathAffected a c = true ↔
      a = c ∨ (c ++ ".").data <+: a.data ∨ (a ++ ".").data <+: c.data := by
  by_cases h1 : a = c
  · simp [isPathAffected, h1]
  · by_cases h2 : (c ++ ".").data <+: a.data
    · simp [isPathAffected, jsStartsWith, List.isPrefixOf_iff_prefix, h1, h2]
    · by_cases h3 : (a ++ ".").data <+: c.data <;>
        simp [isPathAffected, jsStartsWith, List.isPrefixOf_iff_prefix, h1, h2, h3]

/- ## Shape of callback-issued writes during a round -/

/-- A callback-issued write never touches the subscriber list, the id
allocator, or the engine flags, and emits only change-log and
pending-request events. -/
theorem setTrapReentrant_shape (st : StoreState) (parent : List String) (prop : String)
    (value : Val) :
    (setTrapReentrant st parent prop value).st.subs = st.subs ∧
    (setTrapReentrant st parent prop value).st.changeSubs = st.changeSubs ∧
    (setTrapReentrant st parent prop value).st.nextId = st.nextId ∧
    (setTrapReentrant st parent prop value).st.isNotifying = st.isNotifying ∧
    (setTrapReentrant st parent prop value).st.isInTransaction = st.isInTransaction ∧
    roundStarts (setTrapReentrant st parent prop value).log = [] ∧
    (∀ k, reevalsOf k (setTrapReentrant st parent prop value).log = []) ∧
    (∀ k, cbCallsOf k (setTrapReentrant st parent prop value).log = []) := by
  cases hs : assertSerializable value (renderPath (parent ++ [prop])) with
  | error m => simp [setTrapReentrant, hs, roundStarts, reevalsOf, cbCallsOf]
  | ok u =>
      by_cases htx : st.isInTransaction = true
      · simp [setTrapReentrant, hs, htx, roundStarts, reevalsOf, cbCallsOf]
      · obtain ⟨e1, e2, e3, e4⟩ := ncs_events st.changeSubs
          [Change.property (renderPath (parent ++ [prop])) value]
        cases hc : (notifyChangeSubscribers st.changeSubs
            [Change.property (renderPath (parent ++ [prop])) value]).2 with
        | some e => simp [setTrapReentrant, hs, htx, hc, e1, e3, e4]
        | none =>
            simp [setTrapReentrant, hs, htx, hc, e1, e3, e4, roundStarts, reevalsOf, cbCallsOf]

/-- `runCallback` has the same shape guarantees as the write it may issue. -/
theorem runCallback_shape (st : StoreState) (act : CbAct) :
    (runCallback st act).st.subs = st.subs ∧
    (runCallback st act).st.changeSubs = st.changeSubs ∧
    (runCallback st act).st.nextId = st.nextId ∧
    (runCallback st act).st.isNotifying = st.isNotifying ∧
    (runCallback st act).st.isInTransaction = st.isInTransaction ∧
    roundStarts (runCallback st act).log = [] ∧
    (∀ k, reevalsOf k (runCallback st act).log = []) ∧
    (∀ k, cbCallsOf k (runCallback st act).log = []) := by
  cases act with
  | pure => simp [runCallback, roundStarts, reevalsOf, cbCallsOf]
  | throws m => simp [runCallback, roundStarts, reevalsOf, cbCallsOf]
  | writeProp parent prop v => simpa [runCallback] using setTrapReentrant_shape st parent prop v

theorem runCallback_subs (st : StoreState) (act : CbAct) :
    (runCallback st act).st.subs = st.subs := (runCallback_shape st act).1

theorem runCallback_changeSubs (st : StoreState) (act : CbAct) :
    (runCallback st act).st.changeSubs = st.changeSubs := (runCallback_shape st act).2.1

theorem runCallback_nextId (st : StoreState) (act : CbAct) :
    (runCallback st act).st.nextId = st.nextId := (runCallback_shape st act).2.2.1

theorem runCallback_isNotifying (st : StoreState) (act : CbAct) :
    (runCallback st act).st.isNotifying = st.isNotifying := (runCallback_shape st act).2.2.2.1

theorem runCallback_isInTransaction (st : StoreState) (act : CbAct) :
    (runCallback st act).st.isInTransaction = st.isInTransaction :=
  (runCallback_shape st act).2.2.2.2.1

theorem runCallback_roundStarts (st : StoreState) (act : CbAct) :
    roundStarts (runCallback st act).log = [] := (runCallback_shape st act).2.2.2.2.2.1

theorem runCallback_reevalsOf (st : StoreState) (act : CbAct) (k : Nat) :
    reevalsOf k (runCallback st act).log = [] := (runCallback_shape st act).2.2.2.2.2.2.1 k

theorem runCallback_cbCallsOf (st : StoreState) (act : CbAct) (k : Nat) :
    cbCallsOf k (runCallback st act).log = [] := (runCallback_shape st act).2.2.2.2.2.2.2 k

/- ## Shape of one notification round -/

theorem notifyLoop_changeSubs (ps : List String) (b : Bool) :
    ∀ rem i st, (notifyLoop ps b i rem st).st.changeSubs = st.changeSubs := by
  intro rem
  induction rem with
  | zero => intro i st; simp [notifyLoop]
  | succ rem ih =>
      intro i st
      simp only [notifyLoop]
      cases hg : st.subs.get? i with
      | none => rfl
      | some sub =>
          simp only [hg]
          by_cases hsn : shouldNotifyB ps b sub
          · by_cases hf : firesB b sub (trackSelector st.data sub.selPath).2 st.nextId
            · simp only [hsn, hf, if_true, if_pos]
              cases hrc : (runCallback
                  { st with nextId := st.nextId + 1,
                            subs := st.subs.set i (reevalSub sub
                              (trackSelector st.data sub.selPath).1
                              (trackSelector st.data sub.selPath).2 st.nextId true) }
                  sub.act).err with
              | some e => simp [hrc, runCallback_changeSubs]
              | none => simp [hrc, ih, runCallback_changeSubs]
            · simp [hsn, hf, ih]
          · simp [hsn, ih]

theorem notifyLoop_isNotifying (ps : List String) (b : Bool) :
    ∀ rem i st, (notifyLoop ps b i rem st).st.isNotifying = st.isNotifying := by
  intro rem
  induction rem with
  | zero => intro i st; simp [notifyLoop]
  | succ rem ih =>
      intro i st
      simp only [notifyLoop]
      cases hg : st.subs.get? i with
      | none => rfl
      | some sub =>
          simp only [hg]
          by_cases hsn : shouldNotifyB ps b sub
          · by_cases hf : firesB b sub (trackSelector st.data sub.selPath).2 st.nextId
            · simp only [hsn, hf, if_true, if_pos]
              cases hrc : (runCallback
                  { st with nextId := st.nextId + 1,
                            subs := st.subs.set i (reevalSub sub
                              (trackSelector st.data sub.selPath).1
                              (trackSelector st.data sub.selPath).2 st.nextId true) }
                  sub.act).err with
              | some e => simp [hrc, runCallback_isNotifying]
              | none => simp [hrc, ih, runCallback_isNotifying]
            · simp [hsn, hf, ih]
          · simp [hsn, ih]

theorem notifyLoop_isInTransaction (ps : List String) (b : Bool) :
    ∀ rem i st, (notifyLoop ps b i rem st).st.isInTransaction = st.isInTransaction := by
  intro rem
  induction rem with
  | zero => intro i st; simp [notifyLoop]
  | succ rem ih =>
      intro i st
      simp only [notifyLoop]
      cases hg : st.subs.get? i with
      | none => rfl
      | some sub =>
          simp only [hg]
          by_cases hsn : shouldNotifyB ps b sub
          · by_cases hf : firesB b sub (trackSelector st.data sub.selPath).2 st.nextId
            · simp only [hsn, hf, if_true, if_pos]
              cases hrc : (runCallback
                  { st with nextId := st.nextId + 1,
                            subs := st.subs.set i (reevalSub sub
                              (trackSelector st.data sub.selPath).1
                              (trackSelector st.data sub.selPath).2 st.nextId true) }
                  sub.act).err with
              | some e => simp [hrc, runCallback_isInTransaction]
              | none => simp [hrc, ih, runCallback_isInTransaction]
            · simp [hsn, hf, ih]
          · simp [hsn, ih]

theorem notifyLoop_subs_length (ps : List String) (b : Bool) :
    ∀ rem i st, (notifyLoop ps b i rem st).st.subs.length = st.subs.length := by
  intro rem
  induction rem with
  | zero => intro i st; simp [notifyLoop]
  | succ rem ih =>
      intro i st
      simp only [notifyLoop]
      cases hg : st.subs.get? i with
      | none => rfl
      | some sub =>
          simp only [hg]
          by_cases hsn : shouldNotifyB ps b sub
          · by_cases hf : firesB b sub (trackSelector st.data sub.selPath).2 st.nextId
            · simp only [hsn, hf, if_true, if_pos]
              cases hrc : (runCallback
                  { st with nextId := st.nextId + 1,
                            subs := st.subs.set i (reevalSub sub
                              (trackSelector st.data sub.selPath).1
                              (trackSelector st.data sub.selPath).2 st.nextId true) }
                  sub.act).err with
              | some e => simp [hrc, runCallback_subs]
              | none => simp [hrc, ih, runCallback_subs]
            · simp [hsn, hf, ih]
          · simp [hsn, ih]

theorem notifyLoop_nextId_le (ps : List String) (b : Bool) :
    ∀ rem i st, st.nextId ≤ (notifyLoop ps b i rem st).st.nextId := by
  intro rem
  induction rem with
  | zero => intro i st; simp [notifyLoop]
  | succ rem ih =>
      intro i st
      simp only [notifyLoop]
      cases hg : st.subs.get? i with
      | none => simp
      | some sub =>
          simp only [hg]
          by_cases hsn : shouldNotifyB ps b sub
          · by_cases hf : firesB b sub (trackSelector st.data sub.selPath).2 st.nextId
            · simp only [hsn, hf, if_true, if_pos]
              cases hrc : (runCallback
                  { st with nextId := st.nextId + 1,
                            subs := st.subs.set i (reevalSub sub
                              (trackSelector st.data sub.selPath).1
                              (trackSelector st.data sub.selPath).2 st.nextId true) }
                  sub.act).err with
              | some e =>
                  have h2 := runCallback_nextId
                    { st with nextId := st.nextId + 1,
                              subs := st.subs.set i (reevalSub sub
                                (trackSelector st.data sub.selPath).1
                                (trackSelector st.data sub.selPath).2 st.nextId true) }
                    sub.act
                  simp only [hrc]
                  simp only at h2
                  omega
              | none =>
                  have h2 := runCallback_nextId
                    { st with nextId := st.nextId + 1,
                              subs := st.subs.set i (reevalSub sub
                                (trackSelector st.data sub.selPath).1
                                (trackSelector st.data sub.selPath).2 st.nextId true) }
                    sub.act
                  have h3 := ih (i + 1) (runCallback
                    { st with nextId := st.nextId + 1,
                              subs := st.subs.set i (reevalSub sub
                                (trackSelector st.data sub.selPath).1
                                (trackSelector st.data sub.selPath).2 st.nextId true) }
                    sub.act).st
                  simp only [hrc]
                  simp only at h2 h3
                  omega
            · have h3 := ih (i + 1)
                { st with nextId := st.nextId + 1,
                          subs := st.subs.set i (reevalSub sub
                            (trackSelector st.data sub.selPath).1
                            (trackSelector st.data sub.selPath).2 st.nextId false) }
              simp only [hsn, hf, if_true, if_pos, if_neg, Bool.false_eq_true, if_false]
              simp only at h3
              omega
          · have h3 := ih (i + 1) st
            simp only [hsn, Bool.false_eq_true, if_false]
            omega

theorem notifyLoop_roundStarts (ps : List String) (b : Bool) :
    ∀ rem i st, roundStarts (notifyLoop ps b i rem st).log = [] := by
  intro rem
  induction rem with
  | zero => intro i st; simp [notifyLoop, roundStarts]
  | succ rem ih =>
      intro i st
      simp only [notifyLoop]
      cases hg : st.subs.get? i with
      | none => simp [roundStarts]
      | some sub =>
          simp only [hg]
          by_cases hsn : shouldNotifyB ps b sub
          · by_cases hf : firesB b sub (trackSelector st.data sub.selPath).2 st.nextId
            · simp only [hsn, hf, if_true, if_pos]
              cases hrc : (runCallback
                  { st with nextId := st.nextId + 1,
                            subs := st.subs.set i (reevalSub sub
                              (trackSelector st.data sub.selPath).1
                              (trackSelector st.data sub.selPath).2 st.nextId true) }
                  sub.act).err with
              | some e => simp [hrc, roundStarts, runCallback_roundStarts]
              | none => simp [hrc, ih, roundStarts, runCallback_roundStarts]
            · simp [hsn, hf, ih, roundStarts]
          · simp [hsn, ih]

theorem notifyLoop_get_lt (ps : List String) (b : Bool) :
    ∀ rem i st j, j < i →
      (notifyLoop ps b i rem st).st.subs[j]? = st.subs[j]? := by
  intro rem
  induction rem with
  | zero => intro i st j hj; simp [notifyLoop]
  | succ rem ih =>
      intro i st j hj
      simp only [notifyLoop]
      cases hg : st.subs.get? i with
      | none => rfl
      | some sub =>
          simp only [hg]
          by_cases hsn : shouldNotifyB ps b sub
          · by_cases hf : firesB b sub (trackSelector st.data sub.selPath).2 st.nextId
            · simp only [hsn, hf, if_true, if_pos]
              cases hrc : (runCallback
                  { st with nextId := st.nextId + 1,
                            subs := st.subs.set i (reevalSub sub
                              (trackSelector st.data sub.selPath).1
                              (trackSelector st.data sub.selPath).2 st.nextId true) }
                  sub.act).err with
              | some e =>
                  have h2 := runCallback_subs
                    { st with nextId := st.nextId + 1,
                              subs := st.subs.set i (reevalSub sub
                                (trackSelector st.data sub.selPath).1
                                (trackSelector st.data sub.selPath).2 st.nextId true) }
                    sub.act
                  simp only [hrc, h2]
                  simp [List.getElem?_set_ne (show i ≠ j by omega)]
              | none =>
                  have h2 := runCallback_subs
                    { st with nextId := st.nextId + 1,
                              subs := st.subs.set i (reevalSub sub
                                (trackSelector st.data sub.selPath).1
                                (trackSelector st.data sub.selPath).2 st.nextId true) }
                    sub.act
                  have h3 := ih (i + 1) (runCallback
                    { st with nextId := st.nextId + 1,
                              subs := st.subs.set i (reevalSub sub
                                (trackSelector st.data sub.selPath).1
                                (trackSelector st.data sub.selPath).2 st.nextId true) }
                    sub.act).st j (by omega)
                  simp only [hrc, h3, h2]
                  simp [List.getElem?_set_ne (show i ≠ j by omega)]
            · have h3 := ih (i + 1)
                { st with nextId := st.nextId + 1,
                          subs := st.subs.set i (reevalSub sub
                            (trackSelector st.data sub.selPath).1
                            (trackSelector st.data sub.selPath).2 st.nextId false) }
                j (by omega)
              simp only [hsn, hf, if_true, if_pos, if_neg, Bool.false_eq_true, if_false]
              simp only at h3
              rw [h3]
              simp [List.getElem?_set_ne (show i ≠ j by omega)]
          · have h3 := ih (i + 1) st j (by omega)
            simp only [hsn, Bool.false_eq_true, if_false]
            exact h3

theorem notifyLoop_reevalsOf_lt (ps : List String) (b : Bool) :
    ∀ rem i st k, k < i →
      reevalsOf k (notifyLoop ps b i rem st).log = [] := by
  intro rem
  induction rem with
  | zero => intro i st k hk; simp [notifyLoop, reevalsOf]
  | succ rem ih =>
      intro i st k hk
      simp only [notifyLoop]
      cases hg : st.subs.get? i with
      | none => simp [reevalsOf]
      | some sub =>
          simp only [hg]
          by_cases hsn : shouldNotifyB ps b sub
          · by_cases hf : firesB b sub (trackSelector st.data sub.selPath).2 st.nextId
            · simp only [hsn, hf, if_true, if_pos]
              cases hrc : (runCallback
                  { st with nextId := st.nextId + 1,
                            subs := st.subs.set i (reevalSub sub
                              (trackSelector st.data sub.selPath).1
                              (trackSelector st.data sub.selPath).2 st.nextId true) }
                  sub.act).err with
              | some e =>
                  simp [hrc, reevalsOf, cbCallsOf, show ¬(i = k) by omega,
                    runCallback_reevalsOf]
              | none =>
                  simp [hrc, reevalsOf, cbCallsOf, show ¬(i = k) by omega,
                    runCallback_reevalsOf, ih (i + 1) _ k (by omega)]
            · simp [hsn, hf, reevalsOf, show ¬(i = k) by omega, ih (i + 1) _ k (by omega)]
          · simp [hsn, ih (i + 1) _ k (by omega)]

theorem notifyLoop_cbCallsOf_lt (ps : List String) (b : Bool) :
    ∀ rem i st k, k < i →
      cbCallsOf k (notifyLoop ps b i rem st).log = [] := by
  intro rem
  induction rem with
  | zero => intro i st k hk; simp [notifyLoop, cbCallsOf]
  | succ rem ih =>
      intro i st k hk
      simp only [notifyLoop]
      cases hg : st.subs.get? i with
      | none => simp [cbCallsOf]
      | some sub =>
          simp only [hg]
          by_cases hsn : shouldNotifyB ps b sub
          · by_cases hf : firesB b sub (trackSelector st.data sub.selPath).2 st.nextId
            · simp only [hsn, hf, if_true, if_pos]
              cases hrc : (runCallback
                  { st with nextId := st.nextId + 1,
                            subs := st.subs.set i (reevalSub sub
                              (trackSelector st.data sub.selPath).1
                              (trackSelector st.data sub.selPath).2 st.nextId true) }
                  sub.act).err with
              | some e =>
                  simp [hrc, reevalsOf, cbCallsOf, show ¬(i = k) by omega,
                    runCallback_cbCallsOf]
              | none =>
                  simp [hrc, reevalsOf, cbCallsOf, show ¬(i = k) by omega,
                    runCallback_cbCallsOf, ih (i + 1) _ k (by omega)]
            · simp [hsn, hf, reevalsOf, cbCallsOf, show ¬(i = k) by omega,
                ih (i + 1) _ k (by omega)]
          · simp [hsn, ih (i + 1) _ k (by omega)]

/- ## Dependency precision: unaffected observers are never touched -/

theorem notifyLoop_unaffected (ps : List String) :
    ∀ rem i st j s, st.subs[j]? = some s →
      (∀ a ∈ s.paths, ∀ c ∈ ps, isPathAffected a c = false) →
      (notifyLoop ps false i rem st).st.subs[j]? = some s ∧
      cbCallsOf j (notifyLoop ps false i rem st).log = [] ∧
      reevalsOf j (notifyLoop ps false i rem st).log = [] := by
  intro rem
  induction rem with
  | zero => intro i st j s hs hp; simp [notifyLoop, cbCallsOf, reevalsOf, hs]
  | succ rem ih =>
      intro i st j s hs hp
      simp only [notifyLoop]
      cases hg : st.subs.get? i with
      | none => simp [cbCallsOf, reevalsOf, hs]
      | some sub =>
          simp only [hg]
          by_cases hij : i = j
          · have hsub : sub = s := by
              rw [List.get?_eq_getElem?, hij, hs] at hg
              exact (Option.some.injEq _ _).mp hg.symm
            have hsn : shouldNotifyB ps false sub = false := by
              rw [hsub]
              simp only [shouldNotifyB, Bool.false_eq_true, if_false, List.any_eq_false]
              intro a ha
              simp only [Bool.not_eq_true, List.any_eq_false]
              intro c hc
              simp [hp a ha c hc]
            simp only [hsn, Bool.false_eq_true, if_false]
            exact ih (i + 1) st j s hs hp
          · by_cases hsn : shouldNotifyB ps false sub
            · by_cases hf : firesB false sub (trackSelector st.data sub.selPath).2 st.nextId
              · simp only [hsn, hf, if_true, if_pos]
                cases hrc : (runCallback
                    { st with nextId := st.nextId + 1,
                              subs := st.subs.set i (reevalSub sub
                                (trackSelector st.data sub.selPath).1
                                (trackSelector st.data sub.selPath).2 st.nextId true) }
                    sub.act).err with
                | some e =>
                    have h2 := runCallback_subs
                      { st with nextId := st.nextId + 1,
                                subs := st.subs.set i (reevalSub sub
                                  (trackSelector st.data sub.selPath).1
                                  (trackSelector st.data sub.selPath).2 st.nextId true) }
                      sub.act
                    simp only [hrc, h2]
                    simp [cbCallsOf, reevalsOf, hij, List.getElem?_set_ne hij,
                      runCallback_cbCallsOf, runCallback_reevalsOf, hs]
                | none =>
                    have h2 := runCallback_subs
                      { st with nextId := st.nextId + 1,
                                subs := st.subs.set i (reevalSub sub
                                  (trackSelector st.data sub.selPath).1
                                  (trackSelector st.data sub.selPath).2 st.nextId true) }
                      sub.act
                    have hsj : (runCallback
                        { st with nextId := st.nextId + 1,
                                  subs := st.subs.set i (reevalSub sub
                                    (trackSelector st.data sub.selPath).1
                                    (trackSelector st.data sub.selPath).2 st.nextId true) }
                        sub.act).st.subs[j]? = some s := by
                      rw [h2]
                      simpa [List.getElem?_set_ne hij] using hs
                    obtain ⟨g1, g2, g3⟩ := ih (i + 1) _ j s hsj hp
                    simp only [hrc]
                    refine ⟨g1, ?_, ?_⟩ <;>
                      simp [cbCallsOf, reevalsOf, hij, g2, g3,
                        runCallback_cbCallsOf, runCallback_reevalsOf]
              · have hsj :
                    ({ st with nextId := st.nextId + 1,
                               subs := st.subs.set i (reevalSub sub
                                 (trackSelector st.data sub.selPath).1
                                 (trackSelector st.data sub.selPath).2 st.nextId false) } :
                      StoreState).subs[j]? = some s := by
                  simpa [List.getElem?_set_ne hij] using hs
                obtain ⟨g1, g2, g3⟩ := ih (i + 1) _ j s hsj hp
                simp only [hsn, hf, if_true, if_pos, if_neg, Bool.false_eq_true, if_false]
                refine ⟨g1, ?_, ?_⟩ <;> simp [cbCallsOf, reevalsOf, hij, g2, g3]
            · simp only [hsn, Bool.false_eq_true, if_false]
              exact ih (i + 1) st j s hs hp

theorem notifySubscribers_unaffected (ps : List String) :
    ∀ fuel st j s, st.subs[j]? = some s →
      (∀ a ∈ s.paths, ∀ c ∈ ps, isPathAffected a c = false) →
      (notifySubscribers fuel st ps false).st.subs[j]? = some s ∧
      cbCallsOf j (notifySubscribers fuel st ps false).log = [] ∧
      reevalsOf j (notifySubscribers fuel st ps false).log = [] := by
  intro fuel
  induction fuel with
  | zero =>
      intro st j s hs hp
      by_cases h : st.isNotifying = true
      · rw [notifySubscribers_reentrant 0 st ps false h]
        simp [cbCallsOf, reevalsOf, hs]
      · unfold notifySubscribers
        simp [h, cbCallsOf, reevalsOf, hs]
  | succ fuel ih =>
      intro st j s hs hp
      by_cases h : st.isNotifying = true
      · rw [notifySubscribers_reentrant _ st ps false h]
        simp [cbCallsOf, reevalsOf, hs]
      · obtain ⟨g1, g2, g3⟩ := notifyLoop_unaffected ps
          ({ st with isNotifying := true } : StoreState).subs.length 0
          { st with isNotifying := true } j s (by simpa using hs) hp
        unfold notifySubscribers
        simp only [h, Bool.false_eq_true, if_false]
        by_cases hpend : (notifyLoop ps false 0
            ({ st with isNotifying := true } : StoreState).subs.length
            { st with isNotifying := true }).st.pendingNotification = true
        · obtain ⟨k1, k2, k3⟩ := ih
            { (notifyLoop ps false 0 ({ st with isNotifying := true } : StoreState).subs.length
                { st with isNotifying := true }).st with
              isNotifying := false, pendingNotification := false } j s (by simpa using g1) hp
          simp only [hpend, if_true, if_pos]
          refine ⟨by simpa using k1, ?_, ?_⟩ <;>
            simp [cbCallsOf, reevalsOf, g2, g3, k2, k3]
        · simp only [hpend, Bool.false_eq_true, if_false]
          refine ⟨by simpa using g1, ?_, ?_⟩ <;> simp [cbCallsOf, reevalsOf, g2, g3]

theorem setTrap_cbCallsOf_unaffected (fuel : Nat) (st : StoreState) (parent : List String)
    (prop : String) (v : Val) (j : Nat) (s : Sub)
    (hs : st.subs[j]? = some s)
    (hp : ∀ a ∈ s.paths, isPathAffected a (renderPath (parent ++ [prop])) = false) :
    cbCallsOf j (setTrap fuel st parent prop v).log = [] := by
  have hp2 : ∀ a ∈ s.paths, ∀ c ∈ [renderPath (parent ++ [prop])],
      isPathAffected a c = false := by
    intro a ha c hc
    have hc2 : c = renderPath (parent ++ [prop]) := by simpa using hc
    rw [hc2]
    exact hp a ha
  unfold setTrap
  cases hv : assertSerializable v (renderPath (parent ++ [prop])) with
  | error m => simp [hv, cbCallsOf]
  | ok u =>
      by_cases htx : st.isInTransaction = true
      · simp [hv, htx, cbCallsOf]
      · have htx2 : st.isInTransaction = false := by simpa using htx
        obtain ⟨e1, e2, e3, e4⟩ := ncs_events st.changeSubs
          [Change.property (renderPath (parent ++ [prop])) v]
        cases hc : (notifyChangeSubscribers st.changeSubs
            [Change.property (renderPath (parent ++ [prop])) v]).2 with
        | some e => simp [hv, htx, hc, e4]
        | none =>
            obtain ⟨u1, u2, u3⟩ := notifySubscribers_unaffected
              [renderPath (parent ++ [prop])] fuel
              { st with data := updateAt st.data parent fun node => jsSetProp node prop v,
                        isInTransaction := false }
              j s (by simpa using hs) hp2
            cases hn : (notifySubscribers fuel
                { st with data := updateAt st.data parent fun node => jsSetProp node prop v,
                          isInTransaction := false }
                [renderPath (parent ++ [prop])] false).err with
            | some e => simp [hv, htx2, hc, hn, e4, u2]
            | none => simp [hv, htx2, hc, hn, e4, u2]

theorem deleteTrap_cbCallsOf_unaffected (fuel : Nat) (st : StoreState) (parent : List String)
    (prop : String) (j : Nat) (s : Sub)
    (hs : st.subs[j]? = some s)
    (hp : ∀ a ∈ s.paths, isPathAffected a (renderPath (parent ++ [prop])) = false) :
    cbCallsOf j (deleteTrap fuel st parent prop).log = [] := by
  have hp2 : ∀ a ∈ s.paths, ∀ c ∈ [renderPath (parent ++ [prop])],
      isPathAffected a c = false := by
    intro a ha c hc
    have hc2 : c = renderPath (parent ++ [prop]) := by simpa using hc
    rw [hc2]
    exact hp a ha
  unfold deleteTrap
  by_cases hhas : jsHasProp (getValueAtSegs st.data parent) prop = true
  · simp only [hhas, if_true, if_pos]
    by_cases htx : st.isInTransaction = true
    · simp [htx, cbCallsOf]
    · have htx2 : st.isInTransaction = false := by simpa using htx
      obtain ⟨e1, e2, e3, e4⟩ := ncs_events st.changeSubs
        [Change.property (renderPath (parent ++ [prop])) Val.vundef]
      cases hc : (notifyChangeSubscribers st.changeSubs
          [Change.property (renderPath (parent ++ [prop])) Val.vundef]).2 with
      | some e => simp [htx, hc, e4]
      | none =>
          obtain ⟨u1, u2, u3⟩ := notifySubscribers_unaffected
            [renderPath (parent ++ [prop])] fuel
            { st with data := updateAt st.data parent fun n => jsDeleteProp n prop,
                      isInTransaction := false }
            j s (by simpa using hs) hp2
          cases hn : (notifySubscribers fuel
              { st with data := updateAt st.data parent fun n => jsDeleteProp n prop,
                        isInTransaction := false }
              [renderPath (parent ++ [prop])] false).err with
          | some e => simp [htx2, hc, hn, e4, u2]
          | none => simp [htx2, hc, hn, e4, u2]
  · simp [hhas, cbCallsOf]

theorem arrayMutTrap_cbCallsOf_unaffected (fuel : Nat) (st : StoreState) (segs : List String)
    (method : String) (args : List Val) (j : Nat) (s : Sub)
    (hs : st.subs[j]? = some s)
    (hp : ∀ a ∈ s.paths, isPathAffected a (renderPath segs) = false) :
    cbCallsOf j (arrayMutTrap fuel st segs method args).log = [] := by
  have hp2 : ∀ a ∈ s.paths, ∀ c ∈ [renderPath segs], isPathAffected a c = false := by
    intro a ha c hc
    have hc2 : c = renderPath segs := by simpa using hc
    rw [hc2]
    exact hp a ha
  unfold arrayMutTrap
  cases hargs : assertArgsSerializable (renderPath segs) method args 0 with
  | some m => simp [hargs, cbCallsOf]
  | none =>
      cases harr : getValueAtSegs st.data segs with
      | varr xs =>
          simp only [hargs, harr]
          by_cases htx : st.isInTransaction = true
          · simp [htx, cbCallsOf]
          · have htx2 : st.isInTransaction = false := by simpa using htx
            obtain ⟨e1, e2, e3, e4⟩ := ncs_events st.changeSubs
              [Change.array (renderPath segs) method args]
            cases hc : (notifyChangeSubscribers st.changeSubs
                [Change.array (renderPath segs) method args]).2 with
            | some e => simp [htx, hc, e4]
            | none =>
                obtain ⟨u1, u2, u3⟩ := notifySubscribers_unaffected
                  [renderPath segs] fuel
                  { st with data := updateAt st.data segs fun _ =>
                      Val.varr (applyNativeArray method xs args).1,
                            isInTransaction := false }
                  j s (by simpa using hs) hp2
                cases hn : (notifySubscribers fuel
                    { st with data := updateAt st.data segs fun _ =>
                        Val.varr (applyNativeArray method xs args).1,
                              isInTransaction := false }
                    [renderPath segs] false).err with
                | some e => simp [htx2, hc, hn, e4, u2]
                | none => simp [htx2, hc, hn, e4, u2]
      | vundef => simp [hargs, cbCallsOf]
      | vnull => simp [hargs, cbCallsOf]
      | vbool b => simp [hargs, cbCallsOf]
      | vnum n => simp [hargs, cbCallsOf]
      | vstr t => simp [hargs, cbCallsOf]
      | vobj fs => simp [hargs, cbCallsOf]
      | vfun f => simp [hargs, cbCallsOf]
      | vspecial c => simp [hargs, cbCallsOf]

/-- Claim C6: for every registered observer whose recorded dependency paths
are all unrelated (per the lexical containment test) to the path of a
non-forced standalone write, that write never invokes the observer's
callback — regardless of what other observers' callbacks do. -/
theorem C6_dependency_precision (fuel : Nat) (st : StoreState) (op : WriteOp) (j : Nat)
    (s : Sub) (hs : st.subs[j]? = some s)
    (hp : ∀ a ∈ s.paths, isPathAffected a (writeOpPath op) = false) :
    cbCallsOf j (runWriteOp fuel st op).log = [] := by
  cases op with
  | assign parent prop v =>
      exact setTrap_cbCallsOf_unaffected fuel st parent prop v j s hs
        (by simpa [writeOpPath] using hp)
  | del parent prop =>
      exact deleteTrap_cbCallsOf_unaffected fuel st parent prop j s hs
        (by simpa [writeOpPath] using hp)
  | arrMut segs method args =>
      by_cases hm : method ∈ arrayMutators
      · simpa [runWriteOp, hm] using
          arrayMutTrap_cbCallsOf_unaffected fuel st segs method args j s hs
            (by simpa [writeOpPath] using hp)
      · simp [runWriteOp, hm, cbCallsOf]

/- ## Every executed round reuses the original triggering path set -/

theorem notifySubscribers_roundStarts_eq (ps : List String) (b : Bool) :
    ∀ fuel st, ∀ x ∈ roundStarts (notifySubscribers fuel st ps b).log, x = (ps, b) := by
  intro fuel
  induction fuel with
  | zero =>
      intro st x hx
      by_cases h : st.isNotifying = true
      · rw [notifySubscribers_reentrant 0 st ps b h] at hx
        simp [roundStarts] at hx
      · unfold notifySubscribers at hx
        simp [h, roundStarts] at hx
  | succ fuel ih =>
      intro st x hx
      by_cases h : st.isNotifying = true
      · rw [notifySubscribers_reentrant _ st ps b h] at hx
        simp [roundStarts] at hx
      · have hl := notifyLoop_roundStarts ps b
          ({ st with isNotifying := true } : StoreState).subs.length 0
          { st with isNotifying := true }
        unfold notifySubscribers at hx
        simp only [h, Bool.false_eq_true, if_false] at hx
        by_cases hpend : (notifyLoop ps b 0
            ({ st with isNotifying := true } : StoreState).subs.length
            { st with isNotifying := true }).st.pendingNotification = true
        · simp only [hpend, if_true, if_pos, roundStarts, roundStarts_append, hl,
            List.nil_append] at hx
          rcases List.mem_cons.mp hx with hx | hx
          · exact hx
          · exact ih _ x hx
        · simp only [hpend, Bool.false_eq_true, if_false, roundStarts, hl] at hx
          rcases List.mem_cons.mp hx with hx | hx
          · exact hx
          · simp at hx

/-- Claim C4 (amended): a call to the notification engine made while a round
is already in progress records a pending round and returns immediately
without running observers; any number of re-entrant requests collapse into
the single boolean pending flag, hence into at most one follow-up round per
completed round; and every round that actually executes — the follow-up
included — uses the original outer call's triggering path set and force
flag, the re-entrant requests' own path sets being discarded. -/
theorem C4_reentrancy_coalesced :
    (∀ fuel st ps b, st.isNotifying = true →
      notifySubscribers fuel st ps b =
        ⟨{ st with pendingNotification := true }, [Ev.pendingRecorded ps], none⟩) ∧
    (∀ fuel st ps b, ∀ x ∈ roundStarts (notifySubscribers fuel st ps b).log, x = (ps, b)) :=
  ⟨fun fuel st ps b h => notifySubscribers_reentrant fuel st ps b h,
   fun fuel st ps b x hx => notifySubscribers_roundStarts_eq ps b fuel st x hx⟩

theorem C4_reentrancy_coalesced_witness :
    midRoundStore.isNotifying = true ∧
    notifySubscribers 3 midRoundStore ["q"] false =
      ⟨{ midRoundStore with pendingNotification := true }, [Ev.pendingRecorded ["q"]], none⟩ :=
  ⟨by decide, C4_reentrancy_coalesced.1 3 midRoundStore ["q"] false (by decide)⟩

/-- Claim C4 counterexample: with an observer of `"a"` whose callback writes
`root.b` and a second observer of `"b"`, a standalone write to `"a"` records
exactly one re-entrant request, whose path set is `["b"]`; yet both executed
rounds — the follow-up included — use `["a"]`, not the latest re-entrant
request's `["b"]`, and the observer of `"b"` never fires although `b`
changed. -/
theorem C4_counterexample :
    pendingRecords (runWriteOp 5 reentrantStore (.assign [] "a" (.vnum 1))).log = [["b"]] ∧
    roundStarts (runWriteOp 5 reentrantStore (.assign [] "a" (.vnum 1))).log =
      [(["a"], false), (["a"], false)] ∧
    (["a"] : List String) ≠ ["b"] ∧
    jsGet (runWriteOp 5 reentrantStore (.assign [] "a" (.vnum 1))).st.data "b" = .vnum 5 ∧
    cbCallsOf 1 (runWriteOp 5 reentrantStore (.assign [] "a" (.vnum 1))).log = [] := by
  exact ⟨by decide, by decide, by decide, by decide, by decide⟩

/- ## The stored last value after a re-evaluation -/

theorem objectIs_refl (a : JSVal) : objectIs a a = true := by
  unfold objectIs
  by_cases h : isObjLike a.val = true <;> simp [h]

theorem firesB_false_objectIs {b : Bool} {sub : Sub} {nv : Val} {nid : Nat}
    (h : ¬firesB b sub nv nid = true) :
    objectIs ⟨nv, nid⟩ ⟨sub.lastValue, sub.lastId⟩ = true := by
  unfold firesB at h
  simp only [Bool.or_eq_true, Bool.not_eq_true'] at h
  push_neg at h
  simpa using h.2

/-- Core of claim C10: any value recorded by a `reeval` event of a round is
`Object.is`-equal to the last value the round leaves stored for that
observer. -/
theorem notifyLoop_reeval_lastValue (ps : List String) (b : Bool) :
    ∀ rem i st k v id, st.isNotifying = true →
      (v, id) ∈ reevalsOf k (notifyLoop ps b i rem st).log →
      ∃ s2, (notifyLoop ps b i rem st).st.subs[k]? = some s2 ∧
        objectIs ⟨v, id⟩ ⟨s2.lastValue, s2.lastId⟩ = true := by
  intro rem
  induction rem with
  | zero => intro i st k v id hnot hx; simp [notifyLoop, reevalsOf] at hx
  | succ rem ih =>
      intro i st k v id hnot hx
      simp only [notifyLoop] at hx ⊢
      cases hg : st.subs.get? i with
      | none => simp only [hg] at hx; simp [reevalsOf] at hx
      | some sub =>
          simp only [hg] at hx ⊢
          have hlen : i < st.subs.length := by
            by_contra hc
            push_neg at hc
            rw [List.get?_eq_none.mpr hc] at hg
            cases hg
          by_cases hsn : shouldNotifyB ps b sub
          · by_cases hf : firesB b sub (trackSelector st.data sub.selPath).2 st.nextId
            · simp only [hsn, hf, if_true, if_pos] at hx ⊢
              cases hrc : (runCallback
                  { st with nextId := st.nextId + 1,
                            subs := st.subs.set i (reevalSub sub
                              (trackSelector st.data sub.selPath).1
                              (trackSelector st.data sub.selPath).2 st.nextId true) }
                  sub.act).err with
              | some e =>
                  simp only [hrc] at hx ⊢
                  simp only [reevalsOf] at hx
                  rw [runCallback_reevalsOf] at hx
                  by_cases hik : i = k
                  · subst hik
                    have hx2 : v = (trackSelector st.data sub.selPath).2 ∧ id = st.nextId := by
                      simpa using hx
                    refine ⟨reevalSub sub (trackSelector st.data sub.selPath).1
                      (trackSelector st.data sub.selPath).2 st.nextId true, ?_, ?_⟩
                    · rw [runCallback_subs]
                      simp [List.getElem?_set_self (by simpa using hlen)]
                    · rw [hx2.1, hx2.2]
                      simp [reevalSub, objectIs_refl]
                  · simp [hik] at hx
              | none =>
                  simp only [hrc] at hx ⊢
                  simp only [reevalsOf, List.append_eq, reevalsOf_append] at hx
                  rw [runCallback_reevalsOf] at hx
                  by_cases hik : i = k
                  · subst hik
                    rw [notifyLoop_reevalsOf_lt ps b rem (i + 1) _ i (by omega)] at hx
                    have hx2 : v = (trackSelector st.data sub.selPath).2 ∧ id = st.nextId := by
                      simpa using hx
                    refine ⟨reevalSub sub (trackSelector st.data sub.selPath).1
                      (trackSelector st.data sub.selPath).2 st.nextId true, ?_, ?_⟩
                    · rw [notifyLoop_get_lt ps b rem (i + 1) _ i (by omega), runCallback_subs]
                      simp [List.getElem?_set_self (by simpa using hlen)]
                    · rw [hx2.1, hx2.2]
                      simp [reevalSub, objectIs_refl]
                  · simp only [hik, if_false, List.nil_append] at hx
                    have hnot2 : (runCallback
                        { st with nextId := st.nextId + 1,
                                  subs := st.subs.set i (reevalSub sub
                                    (trackSelector st.data sub.selPath).1
                                    (trackSelector st.data sub.selPath).2 st.nextId true) }
                        sub.act).st.isNotifying = true := by
                      rw [runCallback_isNotifying]
                      simpa using hnot
                    exact ih (i + 1) _ k v id hnot2 hx
            · simp only [hsn, hf, if_true, if_pos, if_neg, Bool.false_eq_true, if_false] at hx ⊢
              simp only [reevalsOf] at hx
              by_cases hik : i = k
              · subst hik
                rw [notifyLoop_reevalsOf_lt ps b rem (i + 1) _ i (by omega)] at hx
                have hx2 : v = (trackSelector st.data sub.selPath).2 ∧ id = st.nextId := by
                  simpa using hx
                refine ⟨reevalSub sub (trackSelector st.data sub.selPath).1
                  (trackSelector st.data sub.selPath).2 st.nextId false, ?_, ?_⟩
                · rw [notifyLoop_get_lt ps b rem (i + 1) _ i (by omega)]
                  simp [List.getElem?_set_self (by simpa using hlen)]
                · rw [hx2.1, hx2.2]
                  simpa [reevalSub] using firesB_false_objectIs hf
              · simp only [hik, if_false] at hx
                exact ih (i + 1) _ k v id (by simpa using hnot) hx
          · simp only [hsn, Bool.false_eq_true, if_false] at hx ⊢
            exact ih (i + 1) st k v id hnot hx

/-- Claim C10: after every notification round, every observer that was
re-evaluated during that round has its stored last value `Object.is`-equal
to the value its selector computed in that re-evaluation, whether or not
its callback fired. -/
theorem C10_reeval_updates_lastValue (ps : List String) (b : Bool) (rem i : Nat)
    (st : StoreState) (k : Nat) (v : Val) (id : Nat)
    (hnot : st.isNotifying = true)
    (hmem : (v, id) ∈ reevalsOf k (notifyLoop ps b i rem st).log) :
    ∃ s2, (notifyLoop ps b i rem st).st.subs[k]? = some s2 ∧
      objectIs ⟨v, id⟩ ⟨s2.lastValue, s2.lastId⟩ = true :=
  notifyLoop_reeval_lastValue ps b rem i st k v id hnot hmem

theorem C10_reeval_updates_lastValue_witness :
    roundStore.isNotifying = true ∧
    (Val.vnum 1, 1) ∈ reevalsOf 0 (notifyLoop ["x"] false 0 1 roundStore).log ∧
    ∃ s2, (notifyLoop ["x"] false 0 1 roundStore).st.subs[0]? = some s2 ∧
      objectIs ⟨.vnum 1, 1⟩ ⟨s2.lastValue, s2.lastId⟩ = true :=
  ⟨by decide, by decide,
    C10_reeval_updates_lastValue ["x"] false 1 0 roundStore 0 (.vnum 1) 1
      (by decide) (by decide)⟩

theorem C6_dependency_precision_witness :
    precisionStore.subs[0]? = some precisionSub ∧
    (∀ a ∈ precisionSub.paths,
      isPathAffected a (writeOpPath (.assign [] "y" (.vnum 7))) = false) ∧
    cbCallsOf 0 (runWriteOp 3 precisionStore (.assign [] "y" (.vnum 7))).log = [] :=
  ⟨by decide, by decide,
    C6_dependency_precision 3 precisionStore (.assign [] "y" (.vnum 7)) 0 precisionSub
      (by decide) (by decide)⟩

/- ## Rounds over purely-observing subscribers -/

theorem reevalSub_act (sub : Sub) (nps : List String) (nv : Val) (nid : Nat) (b : Bool) :
    (reevalSub sub nps nv nid b).act = sub.act := by
  unfold reevalSub
  split <;> rfl

theorem reevalSub_selPath (sub : Sub) (nps : List String) (nv : Val) (nid : Nat) (b : Bool) :
    (reevalSub sub nps nv nid b).selPath = sub.selPath := by
  unfold reevalSub
  split <;> rfl

theorem pure_preserved_set (st : StoreState) (i : Nat) (sub : Sub) (nps : List String)
    (nv : Val) (nid : Nat) (b : Bool)
    (hpure : ∀ x ∈ st.subs, x.act = CbAct.pure) (hg : st.subs.get? i = some sub) :
    ∀ x ∈ st.subs.set i (reevalSub sub nps nv nid b), x.act = CbAct.pure := by
  intro x hx
  rcases List.mem_or_eq_of_mem_set hx with hx | hx
  · exact hpure x hx
  · rw [hx, reevalSub_act]
    exact hpure sub (List.get?_mem hg)

theorem fresh_preserved_set (st : StoreState) (i : Nat) (sub : Sub) (nps : List String)
    (nv : Val) (b : Bool)
    (hfresh : ∀ x ∈ st.subs, x.lastId < st.nextId) (hg : st.subs.get? i = some sub) :
    ∀ x ∈ st.subs.set i (reevalSub sub nps nv st.nextId b), x.lastId < st.nextId + 1 := by
  intro x hx
  rcases List.mem_or_eq_of_mem_set hx with hx | hx
  · exact Nat.lt_succ_of_lt (hfresh x hx)
  · rw [hx]
    unfold reevalSub
    split
    · simp
    · simp only
      exact Nat.lt_succ_of_lt (hfresh sub (List.get?_mem hg))

theorem notifyLoop_pure (ps : List String) (b : Bool) :
    ∀ rem i st, (∀ x ∈ st.subs, x.act = CbAct.pure) →
      (notifyLoop ps b i rem st).err = none ∧
      (notifyLoop ps b i rem st).st.data = st.data ∧
      (notifyLoop ps b i rem st).st.pendingNotification = st.pendingNotification ∧
      (notifyLoop ps b i rem st).st.changedPathsTx = st.changedPathsTx ∧
      (notifyLoop ps b i rem st).st.changesTx = st.changesTx ∧
      (∀ x ∈ (notifyLoop ps b i rem st).st.subs, x.act = CbAct.pure) ∧
      (∀ k, batchesOf k (notifyLoop ps b i rem st).log = []) ∧
      pendingRecords (notifyLoop ps b i rem st).log = [] := by
  intro rem
  induction rem with
  | zero =>
      intro i st hpure
      exact ⟨rfl, rfl, rfl, rfl, rfl, hpure, fun _ => rfl, rfl⟩
  | succ rem ih =>
      intro i st hpure
      simp only [notifyLoop]
      cases hg : st.subs.get? i with
      | none =>
          exact ⟨rfl, rfl, rfl, rfl, rfl, hpure, fun _ => rfl, rfl⟩
      | some sub =>
          have hact : sub.act = CbAct.pure := hpure sub (List.get?_mem hg)
          simp only [hg]
          by_cases hsn : shouldNotifyB ps b sub
          · by_cases hf : firesB b sub (trackSelector st.data sub.selPath).2 st.nextId
            · simp only [hsn, hf, if_true, if_pos, hact, runCallback]
              have hp2 := pure_preserved_set st i sub
                (trackSelector st.data sub.selPath).1
                (trackSelector st.data sub.selPath).2 st.nextId true hpure hg
              obtain ⟨g1, g2, g3, g4, g5, g6, g7, g8⟩ := ih (i + 1)
                { st with nextId := st.nextId + 1,
                          subs := st.subs.set i (reevalSub sub
                            (trackSelector st.data sub.selPath).1
                            (trackSelector st.data sub.selPath).2 st.nextId true) }
                (by simpa using hp2)
              refine ⟨by simpa using g1, by simpa using g2, by simpa using g3,
                by simpa using g4, by simpa using g5, by simpa using g6, ?_, ?_⟩
              · intro k
                simp [batchesOf, g7 k]
              · simp [pendingRecords, g8]
            · have hp2 := pure_preserved_set st i sub
                (trackSelector st.data sub.selPath).1
                (trackSelector st.data sub.selPath).2 st.nextId false hpure hg
              obtain ⟨g1, g2, g3, g4, g5, g6, g7, g8⟩ := ih (i + 1)
                { st with nextId := st.nextId + 1,
                          subs := st.subs.set i (reevalSub sub
                            (trackSelector st.data sub.selPath).1
                            (trackSelector st.data sub.selPath).2 st.nextId false) }
                (by simpa using hp2)
              simp only [hsn, hf, if_true, if_pos, if_neg, Bool.false_eq_true, if_false]
              refine ⟨by simpa using g1, by simpa using g2, by simpa using g3,
                by simpa using g4, by simpa using g5, by simpa using g6, ?_, ?_⟩
              · intro k
                simp [batchesOf, g7 k]
              · simp [pendingRecords, g8]
          · simp only [hsn, Bool.false_eq_true, if_false]
            exact ih (i + 1) st hpure

theorem objectIs_ne_id (v : Val) (id : Nat) (s : Sub) (h : id ≠ s.lastId) :
    objectIs ⟨v, id⟩ ⟨s.lastValue, s.lastId⟩ = staleIs v s := by
  unfold objectIs staleIs
  simp only
  by_cases h1 : isObjLike v
  · simp [h1, beq_eq_false_iff_ne.mpr h]
  · simp [h1]

theorem notifyLoop_pure_at (ps : List String) (b : Bool) :
    ∀ rem i st k s, (∀ x ∈ st.subs, x.act = CbAct.pure) → idsFresh st →
      st.subs[k]? = some s → i ≤ k → k < i + rem →
      (reevalsOf k (notifyLoop ps b i rem st).log).map Prod.fst =
        (if shouldNotifyB ps b s then [(trackSelector st.data s.selPath).2] else []) ∧
      (cbCallsOf k (notifyLoop ps b i rem st).log).map Prod.fst =
        (if shouldNotifyB ps b s &&
            (b || !staleIs (trackSelector st.data s.selPath).2 s) then
          [(trackSelector st.data s.selPath).2] else []) := by
  intro rem
  induction rem with
  | zero =>
      intro i st k s hpure hfresh hk hik hkr
      omega
  | succ rem ih =>
      intro i st k s hpure hfresh hk hik hkr
      simp only [notifyLoop]
      by_cases hik2 : i = k
      · subst hik2
        have hgk : st.subs.get? i = some s := by
          rw [List.get?_eq_getElem?]
          exact hk
        have hmem : s ∈ st.subs := List.get?_mem hgk
        have hact : s.act = CbAct.pure := hpure s hmem
        have hne : st.nextId ≠ s.lastId := by
          have := hfresh s hmem
          omega
        have hfire : firesB b s (trackSelector st.data s.selPath).2 st.nextId =
            (b || !staleIs (trackSelector st.data s.selPath).2 s) := by
          unfold firesB
          rw [objectIs_ne_id _ _ _ hne]
        simp only [hgk]
        by_cases hsn : shouldNotifyB ps b s
        · by_cases hf : firesB b s (trackSelector st.data s.selPath).2 st.nextId
          · simp only [hsn, hf, if_true, if_pos, hact, runCallback]
            refine ⟨?_, ?_⟩
            · simp [reevalsOf, cbCallsOf,
                notifyLoop_reevalsOf_lt ps b rem (i+1) _ i (Nat.lt_succ_self i)]
            · rw [if_pos (by rw [← hfire]; exact hf)]
              simp [reevalsOf, cbCallsOf,
                notifyLoop_cbCallsOf_lt ps b rem (i+1) _ i (Nat.lt_succ_self i)]
          · simp only [hsn, hf, if_true, if_pos, Bool.false_eq_true, if_neg, if_false]
            refine ⟨?_, ?_⟩
            · simp [reevalsOf, cbCallsOf,
                notifyLoop_reevalsOf_lt ps b rem (i+1) _ i (Nat.lt_succ_self i)]
            · rw [if_neg (by rw [← hfire]; simpa using hf)]
              simp [reevalsOf, cbCallsOf,
                notifyLoop_cbCallsOf_lt ps b rem (i+1) _ i (Nat.lt_succ_self i)]
        · simp only [hsn, Bool.false_eq_true, if_false]
          refine ⟨?_, ?_⟩
          · rw [notifyLoop_reevalsOf_lt ps b rem (i+1) st i (Nat.lt_succ_self i)]
            simp [hsn]
          · rw [notifyLoop_cbCallsOf_lt ps b rem (i+1) st i (Nat.lt_succ_self i)]
            simp [hsn]
      · have hik3 : i < k := by omega
        cases hg : st.subs.get? i with
        | none =>
            have hlen : st.subs.length ≤ i := List.get?_eq_none.mp hg
            have hnone : st.subs[k]? = none := List.getElem?_eq_none (by omega)
            rw [hnone] at hk
            exact Option.noConfusion hk
        | some sub =>
            have hact : sub.act = CbAct.pure := hpure sub (List.get?_mem hg)
            simp only [hg]
            by_cases hsn : shouldNotifyB ps b sub
            · by_cases hf : firesB b sub (trackSelector st.data sub.selPath).2 st.nextId
              · simp only [hsn, hf, if_true, if_pos, hact, runCallback]
                have hp2 := pure_preserved_set st i sub
                  (trackSelector st.data sub.selPath).1
                  (trackSelector st.data sub.selPath).2 st.nextId true hpure hg
                have hfr2 := fresh_preserved_set st i sub
                  (trackSelector st.data sub.selPath).1
                  (trackSelector st.data sub.selPath).2 true hfresh hg
                have hk2 : (st.subs.set i (reevalSub sub
                    (trackSelector st.data sub.selPath).1
                    (trackSelector st.data sub.selPath).2 st.nextId true))[k]? =
                    some s := by
                  rw [List.getElem?_set_ne hik2]
                  exact hk
                obtain ⟨j1, j2⟩ := ih (i + 1)
                  { st with nextId := st.nextId + 1,
                            subs := st.subs.set i (reevalSub sub
                              (trackSelector st.data sub.selPath).1
                              (trackSelector st.data sub.selPath).2 st.nextId true) }
                  k s hp2 (fun x hx => hfr2 x hx) hk2 (by omega) (by omega)
                refine ⟨?_, ?_⟩
                · simp only [reevalsOf, cbCallsOf, if_neg hik2, List.nil_append]
                  exact j1
                · simp only [reevalsOf, cbCallsOf, if_neg hik2, List.nil_append]
                  exact j2
              · rw [Bool.not_eq_true] at hf
                simp only [hsn, hf, if_true, if_pos, Bool.false_eq_true, if_neg, if_false]
                have hp2 := pure_preserved_set st i sub
                  (trackSelector st.data sub.selPath).1
                  (trackSelector st.data sub.selPath).2 st.nextId false hpure hg
                have hfr2 := fresh_preserved_set st i sub
                  (trackSelector st.data sub.selPath).1
                  (trackSelector st.data sub.selPath).2 false hfresh hg
                have hk2 : (st.subs.set i (reevalSub sub
                    (trackSelector st.data sub.selPath).1
                    (trackSelector st.data sub.selPath).2 st.nextId false))[k]? =
                    some s := by
                  rw [List.getElem?_set_ne hik2]
                  exact hk
                obtain ⟨j1, j2⟩ := ih (i + 1)
                  { st with nextId := st.nextId + 1,
                            subs := st.subs.set i (reevalSub sub
                              (trackSelector st.data sub.selPath).1
                              (trackSelector st.data sub.selPath).2 st.nextId false) }
                  k s hp2 (fun x hx => hfr2 x hx) hk2 (by omega) (by omega)
                refine ⟨?_, ?_⟩
                · simp only [reevalsOf, cbCallsOf, if_neg hik2]
                  exact j1
                · simp only [reevalsOf, cbCallsOf, if_neg hik2]
                  exact j2
            · simp only [hsn, Bool.false_eq_true, if_false]
              exact ih (i + 1) st k s hpure hfresh hk (by omega) (by omega)

theorem notifySubscribers_pure_run (f : Nat) (st : StoreState) (ps : List String)
    (b : Bool) (hn : st.isNotifying = false) (hp : st.pendingNotification = false)
    (hpure : ∀ x ∈ st.subs, x.act = CbAct.pure) (hfresh : idsFresh st) :
    (notifySubscribers (f + 1) st ps b).err = none ∧
    (notifySubscribers (f + 1) st ps b).st.data = st.data ∧
    roundStarts (notifySubscribers (f + 1) st ps b).log = [(ps, b)] ∧
    (∀ k, batchesOf k (notifySubscribers (f + 1) st ps b).log = []) ∧
    ∀ k s, st.subs[k]? = some s →
      (cbCallsOf k (notifySubscribers (f + 1) st ps b).log).map Prod.fst =
        (if shouldNotifyB ps b s &&
            (b || !staleIs (trackSelector st.data s.selPath).2 s) then
          [(trackSelector st.data s.selPath).2] else []) := by
  have hpure1 : ∀ x ∈ ({ st with isNotifying := true } : StoreState).subs,
      x.act = CbAct.pure := hpure
  obtain ⟨g1, g2, g3, g4, g5, g6, g7, g8⟩ :=
    notifyLoop_pure ps b st.subs.length 0 { st with isNotifying := true } hpure1
  have hpend : (notifyLoop ps b 0 st.subs.length
      { st with isNotifying := true }).st.pendingNotification = false := by
    rw [g3]
    exact hp
  unfold notifySubscribers
  simp only [hn, Bool.false_eq_true, if_false, hpend, if_neg, g1]
  refine ⟨trivial, by simpa using g2, ?_, ?_, ?_⟩
  · simp [roundStarts, notifyLoop_roundStarts]
  · intro k
    simp [batchesOf, g7 k]
  · intro k s hk
    have hklen : k < st.subs.length := by
      by_contra hcon
      push_neg at hcon
      rw [List.getElem?_eq_none hcon] at hk
      exact Option.noConfusion hk
    obtain ⟨_, j2⟩ := notifyLoop_pure_at ps b st.subs.length 0
      { st with isNotifying := true } k s hpure1 hfresh hk (Nat.zero_le k)
      (by omega)
    simpa [cbCallsOf] using j2

/- ## Writes inside a transaction only accumulate -/

theorem runStmt_tx (fuel : Nat) (st : StoreState) (s : Stmt)
    (htx : st.isInTransaction = true) :
    (runStmt fuel st s).st.isInTransaction = true ∧
    (runStmt fuel st s).st.subs = st.subs ∧
    (runStmt fuel st s).st.changeSubs = st.changeSubs ∧
    (runStmt fuel st s).st.isNotifying = st.isNotifying ∧
    (runStmt fuel st s).st.pendingNotification = st.pendingNotification ∧
    (runStmt fuel st s).st.nextId = st.nextId ∧
    (runStmt fuel st s).log = [] := by
  cases s with
  | throwErr m => exact ⟨htx, rfl, rfl, rfl, rfl, rfl, rfl⟩
  | write op =>
      cases op with
      | assign parent prop v =>
          simp only [runStmt, runWriteOp, setTrap]
          cases h : assertSerializable v (renderPath (parent ++ [prop])) with
          | error m => exact ⟨htx, rfl, rfl, rfl, rfl, rfl, rfl⟩
          | ok u =>
              simp only [h, htx, if_pos]
              exact ⟨trivial, trivial, trivial, trivial, trivial, trivial, trivial⟩
      | del parent prop =>
          simp only [runStmt, runWriteOp, deleteTrap]
          by_cases h : jsHasProp (getValueAtSegs st.data parent) prop
          · simp only [h, htx, if_pos]
            exact ⟨trivial, trivial, trivial, trivial, trivial, trivial, trivial⟩
          · simp only [h, Bool.false_eq_true, if_false]
            exact ⟨htx, trivial, trivial, trivial, trivial, trivial, trivial⟩
      | arrMut segs method args =>
          simp only [runStmt, runWriteOp]
          by_cases hm : arrayMutators.contains method
          · simp only [hm, if_pos, arrayMutTrap]
            cases ha : assertArgsSerializable (renderPath segs) method args 0 with
            | some m => exact ⟨htx, rfl, rfl, rfl, rfl, rfl, rfl⟩
            | none =>
                simp only [ha]
                cases hv : getValueAtSegs st.data segs with
                | varr xs =>
                    simp only [htx, if_pos]
                    exact ⟨trivial, trivial, trivial, trivial, trivial, trivial, trivial⟩
                | vundef => exact ⟨htx, rfl, rfl, rfl, rfl, rfl, rfl⟩
                | vnull => exact ⟨htx, rfl, rfl, rfl, rfl, rfl, rfl⟩
                | vbool b => exact ⟨htx, rfl, rfl, rfl, rfl, rfl, rfl⟩
                | vnum n => exact ⟨htx, rfl, rfl, rfl, rfl, rfl, rfl⟩
                | vstr s => exact ⟨htx, rfl, rfl, rfl, rfl, rfl, rfl⟩
                | vobj fs => exact ⟨htx, rfl, rfl, rfl, rfl, rfl, rfl⟩
                | vfun => exact ⟨htx, rfl, rfl, rfl, rfl, rfl, rfl⟩
                | vspecial t => exact ⟨htx, rfl, rfl, rfl, rfl, rfl, rfl⟩
          · simp only [hm, Bool.false_eq_true, if_false]
            exact ⟨htx, trivial, trivial, trivial, trivial, trivial, trivial⟩

theorem runBody_tx (fuel : Nat) :
    ∀ stmts st, st.isInTransaction = true →
    (runBody fuel st stmts).st.isInTransaction = true ∧
    (runBody fuel st stmts).st.subs = st.subs ∧
    (runBody fuel st stmts).st.changeSubs = st.changeSubs ∧
    (runBody fuel st stmts).st.isNotifying = st.isNotifying ∧
    (runBody fuel st stmts).st.pendingNotification = st.pendingNotification ∧
    (runBody fuel st stmts).st.nextId = st.nextId ∧
    (runBody fuel st stmts).log = [] := by
  intro stmts
  induction stmts with
  | nil => intro st htx; exact ⟨htx, rfl, rfl, rfl, rfl, rfl, rfl⟩
  | cons s rest ih =>
      intro st htx
      obtain ⟨s1, s2, s3, s4, s5, s6, s7⟩ := runStmt_tx fuel st s htx
      simp only [runBody]
      cases he : (runStmt fuel st s).err with
      | some e => exact ⟨s1, s2, s3, s4, s5, s6, by simp [s7]⟩
      | none =>
          obtain ⟨r1, r2, r3, r4, r5, r6, r7⟩ := ih (runStmt fuel st s).st s1
          exact ⟨r1, r2.trans s2, r3.trans s3, r4.trans s4, r5.trans s5,
            r6.trans s6, by simp [s7, r7]⟩

/- ## Change-log dispatch when every subscriber returns normally -/

theorem ncsGo_ok (batch : List Change) :
    ∀ cs i, (∀ c ∈ cs, c = ChangeSub.ok) →
      (notifyChangeSubscribersGo batch cs i).2 = none ∧
      ∀ j, batchesOf j (notifyChangeSubscribersGo batch cs i).1 =
        if i ≤ j ∧ j < i + cs.length then [batch] else [] := by
  intro cs
  induction cs with
  | nil =>
      intro i hok
      refine ⟨rfl, fun j => ?_⟩
      simp only [notifyChangeSubscribersGo, List.length_nil]
      rw [if_neg (by omega)]
      rfl
  | cons c rest ih =>
      intro i hok
      have hc : c = ChangeSub.ok := hok c (List.mem_cons_self c rest)
      subst hc
      obtain ⟨h1, h2⟩ := ih (i + 1) (fun x hx => hok x (List.mem_cons_of_mem _ hx))
      refine ⟨h1, fun j => ?_⟩
      by_cases hj : i = j
      · subst hj
        simp only [notifyChangeSubscribersGo, batchesOf, if_pos, List.length_cons]
        rw [h2 i, if_neg (by omega), if_pos (by omega)]
      · simp only [notifyChangeSubscribersGo, batchesOf, if_neg hj, List.length_cons]
        rw [h2 j]
        by_cases hr : i + 1 ≤ j ∧ j < i + 1 + rest.length
        · rw [if_pos hr, if_pos (by omega)]
        · rw [if_neg hr, if_neg (by omega)]

theorem ncs_ok (cs : List ChangeSub) (batch : List Change)
    (hok : ∀ c ∈ cs, c = ChangeSub.ok) (hne : batch ≠ []) :
    (notifyChangeSubscribers cs batch).2 = none ∧
    ∀ j, j < cs.length →
      batchesOf j (notifyChangeSubscribers cs batch).1 = [batch] := by
  unfold notifyChangeSubscribers
  rw [if_neg (fun h => hne (List.length_eq_zero.mp h))]
  obtain ⟨h1, h2⟩ := ncsGo_ok batch cs 0 hok
  refine ⟨h1, fun j hj => ?_⟩
  rw [h2 j, if_pos (by omega)]

/- ## The transaction flush on a quiescent store -/

theorem txFlush_run (f : Nat) (st : StoreState) (bodyErr : Option String)
    (hn : st.isNotifying = false) (hp : st.pendingNotification = false)
    (hpure : ∀ x ∈ st.subs, x.act = CbAct.pure) (hfresh : idsFresh st)
    (hok : ∀ c ∈ st.changeSubs, c = ChangeSub.ok)
    (hps : st.changedPathsTx ≠ []) (hch : st.changesTx ≠ []) :
    (txFlush (f + 1) st bodyErr).err = bodyErr ∧
    (txFlush (f + 1) st bodyErr).st.data = st.data ∧
    roundStarts (txFlush (f + 1) st bodyErr).log = [(st.changedPathsTx, false)] ∧
    (∀ j, j < st.changeSubs.length →
      batchesOf j (txFlush (f + 1) st bodyErr).log = [st.changesTx]) ∧
    ∀ k s, st.subs[k]? = some s →
      (cbCallsOf k (txFlush (f + 1) st bodyErr).log).map Prod.fst =
        (if shouldNotifyB st.changedPathsTx false s &&
            !staleIs (trackSelector st.data s.selPath).2 s then
          [(trackSelector st.data s.selPath).2] else []) := by
  have hlen : ¬ st.changedPathsTx.length = 0 :=
    fun h => hps (List.length_eq_zero.mp h)
  obtain ⟨c1, c2⟩ := ncs_ok st.changeSubs st.changesTx hok hch
  obtain ⟨e1, e2, e3, e4⟩ := ncs_events st.changeSubs st.changesTx
  have hst1 : ({ st with isInTransaction := false } : StoreState).isNotifying = false := hn
  have hst1p : ({ st with isInTransaction := false } : StoreState).pendingNotification =
      false := hp
  obtain ⟨g1, g2, g3, g4, g5⟩ := notifySubscribers_pure_run f
    { st with isInTransaction := false } st.changedPathsTx false hst1 hst1p hpure hfresh
  unfold txFlush
  rw [if_neg hlen]
  simp only [c1, g1]
  refine ⟨trivial, by simpa using g2, ?_, ?_, ?_⟩
  · simp only [roundStarts_append, e1, List.nil_append]
    exact g3
  · intro j hj
    simp only [batchesOf_append, c2 j hj, g4 j, List.append_nil]
  · intro k s hk
    simp only [cbCallsOf_append, e4 k, List.nil_append]
    exact g5 k s hk

theorem addPath_length (ps : List String) (p : String) :
    (addPath ps p).length ≤ ps.length + 1 := by
  unfold addPath
  split
  · omega
  · simp

theorem runStmt_txLen (fuel : Nat) (st : StoreState) (s : Stmt)
    (htx : st.isInTransaction = true)
    (h : st.changedPathsTx.length ≤ st.changesTx.length) :
    (runStmt fuel st s).st.changedPathsTx.length ≤
      (runStmt fuel st s).st.changesTx.length := by
  cases s with
  | throwErr m => exact h
  | write op =>
      cases op with
      | assign parent prop v =>
          simp only [runStmt, runWriteOp, setTrap]
          cases ha : assertSerializable v (renderPath (parent ++ [prop])) with
          | error m => exact h
          | ok u =>
              simp only [ha, htx, if_pos, List.length_append, List.length_cons,
                List.length_nil]
              have := addPath_length st.changedPathsTx (renderPath (parent ++ [prop]))
              omega
      | del parent prop =>
          simp only [runStmt, runWriteOp, deleteTrap]
          by_cases hhas : jsHasProp (getValueAtSegs st.data parent) prop
          · simp only [hhas, htx, if_pos, List.length_append, List.length_cons,
              List.length_nil]
            have := addPath_length st.changedPathsTx (renderPath (parent ++ [prop]))
            omega
          · simp only [hhas, Bool.false_eq_true, if_false]
            exact h
      | arrMut segs method args =>
          simp only [runStmt, runWriteOp]
          by_cases hm : arrayMutators.contains method
          · simp only [hm, if_pos, arrayMutTrap]
            cases ha : assertArgsSerializable (renderPath segs) method args 0 with
            | some m => exact h
            | none =>
                simp only [ha]
                cases hv : getValueAtSegs st.data segs with
                | varr xs =>
                    simp only [htx, if_pos, List.length_append, List.length_cons,
                      List.length_nil]
                    have := addPath_length st.changedPathsTx (renderPath segs)
                    omega
                | vundef => exact h
                | vnull => exact h
                | vbool b => exact h
                | vnum n => exact h
                | vstr s => exact h
                | vobj fs => exact h
                | vfun => exact h
                | vspecial t => exact h
          · simp only [hm, Bool.false_eq_true, if_false]
            exact h

theorem runBody_txLen (fuel : Nat) :
    ∀ stmts st, st.isInTransaction = true →
    st.changedPathsTx.length ≤ st.changesTx.length →
    (runBody fuel st stmts).st.changedPathsTx.length ≤
      (runBody fuel st stmts).st.changesTx.length := by
  intro stmts
  induction stmts with
  | nil => intro st htx h; exact h
  | cons s rest ih =>
      intro st htx h
      obtain ⟨s1, _⟩ := runStmt_tx fuel st s htx
      simp only [runBody]
      cases he : (runStmt fuel st s).err with
      | some e => exact runStmt_txLen fuel st s htx h
      | none => exact ih (runStmt fuel st s).st s1 (runStmt_txLen fuel st s htx h)

theorem applyTx_eq (fuel : Nat) (st : StoreState) (stmts : List Stmt) :
    applyTx fuel st stmts =
      ⟨(txFlush fuel (runBody fuel (txStart st) stmts).st
          (runBody fuel (txStart st) stmts).err).st,
        (runBody fuel (txStart st) stmts).log ++
          (txFlush fuel (runBody fuel (txStart st) stmts).st
            (runBody fuel (txStart st) stmts).err).log,
        (txFlush fuel (runBody fuel (txStart st) stmts).st
          (runBody fuel (txStart st) stmts).err).err⟩ := rfl

/-- C2: a transaction body that throws after mutating is not rolled back:
the mutated data stands, the flush still dispatches one change-log batch
holding the accumulated records and one notification round for the
accumulated paths, and the body's error is what `apply` rethrows. -/
theorem C2_transaction_not_rolled_back (f : Nat) (st : StoreState)
    (stmts : List Stmt) (m : String)
    (hn : st.isNotifying = false) (hp : st.pendingNotification = false)
    (hpure : subsPure st) (hfresh : idsFresh st) (hok : changeSubsOk st)
    (hberr : (runBody (f + 1) (txStart st) stmts).err = some m)
    (hmut : (runBody (f + 1) (txStart st) stmts).st.changedPathsTx ≠ []) :
    (applyTx (f + 1) st stmts).err = some m ∧
    (applyTx (f + 1) st stmts).st.data =
      (runBody (f + 1) (txStart st) stmts).st.data ∧
    roundStarts (applyTx (f + 1) st stmts).log =
      [((runBody (f + 1) (txStart st) stmts).st.changedPathsTx, false)] ∧
    ∀ j, j < st.changeSubs.length →
      batchesOf j (applyTx (f + 1) st stmts).log =
        [(runBody (f + 1) (txStart st) stmts).st.changesTx] := by
  obtain ⟨s1, s2, s3, s4, s5, s6, s7⟩ := runBody_tx (f + 1) stmts (txStart st) rfl
  have hlen := runBody_txLen (f + 1) stmts (txStart st) rfl (by simp [txStart])
  have hch : (runBody (f + 1) (txStart st) stmts).st.changesTx ≠ [] := by
    intro hcon
    apply hmut
    rw [hcon] at hlen
    simp only [List.length_nil, Nat.le_zero] at hlen
    exact List.eq_nil_of_length_eq_zero hlen
  have hn2 : (runBody (f + 1) (txStart st) stmts).st.isNotifying = false :=
    s4.trans hn
  have hp2 : (runBody (f + 1) (txStart st) stmts).st.pendingNotification = false :=
    s5.trans hp
  have hpure2 : ∀ x ∈ (runBody (f + 1) (txStart st) stmts).st.subs,
      x.act = CbAct.pure := by
    rw [s2]
    exact hpure
  have hfresh2 : idsFresh (runBody (f + 1) (txStart st) stmts).st := by
    intro x hx
    rw [s2] at hx
    rw [s6]
    exact hfresh x hx
  have hok2 : ∀ c ∈ (runBody (f + 1) (txStart st) stmts).st.changeSubs,
      c = ChangeSub.ok := by
    rw [s3]
    exact hok
  obtain ⟨t1, t2, t3, t4, t5⟩ := txFlush_run f
    (runBody (f + 1) (txStart st) stmts).st
    (runBody (f + 1) (txStart st) stmts).err
    hn2 hp2 hpure2 hfresh2 hok2 hmut hch
  rw [applyTx_eq]
  refine ⟨t1.trans hberr, t2, ?_, ?_⟩
  · simp only [roundStarts_append, s7, roundStarts, List.nil_append]
    exact t3
  · intro j hj
    simp only [batchesOf_append, s7, batchesOf, List.nil_append]
    exact t4 j (by rw [s3]; exact hj)

theorem C2_transaction_not_rolled_back_witness :
    precisionStore.isNotifying = false ∧
    precisionStore.pendingNotification = false ∧
    subsPure precisionStore ∧ idsFresh precisionStore ∧
    changeSubsOk precisionStore ∧
    (runBody 1 (txStart precisionStore)
      [.write (.assign [] "x" (.vnum 9)), .throwErr "boom"]).err = some "boom" ∧
    (runBody 1 (txStart precisionStore)
      [.write (.assign [] "x" (.vnum 9)), .throwErr "boom"]).st.changedPathsTx ≠ [] ∧
    (applyTx 1 precisionStore
      [.write (.assign [] "x" (.vnum 9)), .throwErr "boom"]).err = some "boom" ∧
    (applyTx 1 precisionStore
      [.write (.assign [] "x" (.vnum 9)), .throwErr "boom"]).st.data =
      (runBody 1 (txStart precisionStore)
        [.write (.assign [] "x" (.vnum 9)), .throwErr "boom"]).st.data := by
  have h := C2_transaction_not_rolled_back 0 precisionStore
    [.write (.assign [] "x" (.vnum 9)), .throwErr "boom"] "boom"
    (by decide) (by decide) (by unfold subsPure; decide)
    (by unfold idsFresh; decide) (by unfold changeSubsOk; decide)
    (by decide) (by decide)
  exact ⟨by decide, by decide, by unfold subsPure; decide,
    by unfold idsFresh; decide, by unfold changeSubsOk; decide,
    by decide, by decide, h.1, h.2.1⟩

/-- C3 (corrected): the flush of a transaction invokes each affected
observer's callback at most once, with the value computed from the final
post-transaction state — but not always exactly once: when that final value
is `Object.is`-equal to the observer's stored last value the callback is
skipped entirely. -/
theorem C3_batched_single_invocation (f : Nat) (st : StoreState)
    (stmts : List Stmt)
    (hn : st.isNotifying = false) (hp : st.pendingNotification = false)
    (hpure : subsPure st) (hfresh : idsFresh st) (hok : changeSubsOk st)
    (hmut : (runBody (f + 1) (txStart st) stmts).st.changedPathsTx ≠ []) :
    ∀ k s, st.subs[k]? = some s →
      (cbCallsOf k (applyTx (f + 1) st stmts).log).map Prod.fst =
        (if shouldNotifyB
              (runBody (f + 1) (txStart st) stmts).st.changedPathsTx false s &&
            !staleIs (trackSelector
              (runBody (f + 1) (txStart st) stmts).st.data s.selPath).2 s then
          [(trackSelector
              (runBody (f + 1) (txStart st) stmts).st.data s.selPath).2]
        else []) := by
  obtain ⟨s1, s2, s3, s4, s5, s6, s7⟩ := runBody_tx (f + 1) stmts (txStart st) rfl
  have hlen := runBody_txLen (f + 1) stmts (txStart st) rfl (by simp [txStart])
  have hch : (runBody (f + 1) (txStart st) stmts).st.changesTx ≠ [] := by
    intro hcon
    apply hmut
    rw [hcon] at hlen
    simp only [List.length_nil, Nat.le_zero] at hlen
    exact List.eq_nil_of_length_eq_zero hlen
  have hn2 : (runBody (f + 1) (txStart st) stmts).st.isNotifying = false :=
    s4.trans hn
  have hp2 : (runBody (f + 1) (txStart st) stmts).st.pendingNotification = false :=
    s5.trans hp
  have hpure2 : ∀ x ∈ (runBody (f + 1) (txStart st) stmts).st.subs,
      x.act = CbAct.pure := by
    rw [s2]
    exact hpure
  have hfresh2 : idsFresh (runBody (f + 1) (txStart st) stmts).st := by
    intro x hx
    rw [s2] at hx
    rw [s6]
    exact hfresh x hx
  have hok2 : ∀ c ∈ (runBody (f + 1) (txStart st) stmts).st.changeSubs,
      c = ChangeSub.ok := by
    rw [s3]
    exact hok
  obtain ⟨t1, t2, t3, t4, t5⟩ := txFlush_run f
    (runBody (f + 1) (txStart st) stmts).st
    (runBody (f + 1) (txStart st) stmts).err
    hn2 hp2 hpure2 hfresh2 hok2 hmut hch
  intro k s hk
  rw [applyTx_eq]
  simp only [cbCallsOf_append, s7, cbCallsOf, List.nil_append]
  exact t5 k s (by rw [s2]; exact hk)

theorem C3_batched_single_invocation_witness :
    precisionStore.isNotifying = false ∧
    precisionStore.pendingNotification = false ∧
    subsPure precisionStore ∧ idsFresh precisionStore ∧
    changeSubsOk precisionStore ∧
    (runBody 1 (txStart precisionStore)
      [.write (.assign [] "x" (.vnum 7)),
       .write (.assign [] "x" (.vnum 9))]).st.changedPathsTx ≠ [] ∧
    precisionStore.subs[0]? = some precisionSub ∧
    (cbCallsOf 0 (applyTx 1 precisionStore
      [.write (.assign [] "x" (.vnum 7)),
       .write (.assign [] "x" (.vnum 9))]).log).map Prod.fst = [.vnum 9] := by
  have h := C3_batched_single_invocation 0 precisionStore
    [.write (.assign [] "x" (.vnum 7)), .write (.assign [] "x" (.vnum 9))]
    (by decide) (by decide) (by unfold subsPure; decide)
    (by unfold idsFresh; decide) (by unfold changeSubsOk; decide)
    (by decide) 0 precisionSub (by decide)
  refine ⟨by decide, by decide, by unfold subsPure; decide,
    by unfold idsFresh; decide, by unfold changeSubsOk; decide,
    by decide, by decide, ?_⟩
  rw [h]
  decide

/-- Two writes inside one `apply` whose net effect restores the observer's
previous value: the observer is affected by the union of the written paths,
yet its callback is invoked zero times — refuting "exactly once". -/
theorem C3_counterexample :
    (runBody 1 (txStart precisionStore)
      [.write (.assign [] "x" (.vnum 5)),
       .write (.assign [] "x" (.vnum 1))]).st.changedPathsTx = ["x"] ∧
    shouldNotifyB ["x"] false precisionSub = true ∧
    cbCallsOf 0 (applyTx 1 precisionStore
      [.write (.assign [] "x" (.vnum 5)),
       .write (.assign [] "x" (.vnum 1))]).log = [] := by
  decide

/-- C7: `trigger` reduces the selector's freshly recorded paths to leaf
paths and, when any remain, forces one notification round; an observer's
callback runs precisely when its own leaf dependency paths overlap a
triggered leaf (the forced round ignores value equality, so it runs even
when the computed value is unchanged). -/
theorem C7_trigger_leaf_scoping (f : Nat) (st : StoreState) (selPath : List String)
    (hn : st.isNotifying = false) (hp : st.pendingNotification = false)
    (hpure : subsPure st) (hfresh : idsFresh st) :
    (triggerOp (f + 1) st selPath).err = none ∧
    roundStarts (triggerOp (f + 1) st selPath).log =
      (if (getLeafPaths (trackSelector st.data selPath).1).length = 0 then []
       else [(getLeafPaths (trackSelector st.data selPath).1, true)]) ∧
    ∀ k s, st.subs[k]? = some s →
      (cbCallsOf k (triggerOp (f + 1) st selPath).log).map Prod.fst =
        (if (getLeafPaths (trackSelector st.data selPath).1).length ≠ 0 ∧
            shouldNotifyB (getLeafPaths (trackSelector st.data selPath).1) true s then
          [(trackSelector st.data s.selPath).2] else []) := by
  unfold triggerOp
  by_cases h0 : (getLeafPaths (trackSelector st.data selPath).1).length = 0
  · rw [if_pos h0]
    refine ⟨rfl, by rw [if_pos h0]; rfl, fun k s hk => ?_⟩
    rw [if_neg (fun hc => hc.1 h0)]
    rfl
  · rw [if_neg h0]
    obtain ⟨g1, g2, g3, g4, g5⟩ := notifySubscribers_pure_run f st
      (getLeafPaths (trackSelector st.data selPath).1) true hn hp hpure hfresh
    refine ⟨g1, by rw [if_neg h0]; exact g3, fun k s hk => ?_⟩
    rw [g5 k s hk]
    by_cases hsn :
        shouldNotifyB (getLeafPaths (trackSelector st.data selPath).1) true s
    · rw [if_pos (by simp [hsn]), if_pos ⟨h0, hsn⟩]
    · rw [if_neg (by simp [hsn]), if_neg (fun hc => hsn hc.2)]

theorem C7_trigger_leaf_scoping_witness :
    triggerStore.isNotifying = false ∧
    triggerStore.pendingNotification = false ∧
    subsPure triggerStore ∧ idsFresh triggerStore ∧
    (cbCallsOf 0 (triggerOp 1 triggerStore ["data", "value"]).log).map Prod.fst =
      [.vnum 1] ∧
    (cbCallsOf 1 (triggerOp 1 triggerStore ["data", "value"]).log).map Prod.fst =
      [.vobj [("value", .vnum 1), ("label", .vnum 2)]] ∧
    (cbCallsOf 2 (triggerOp 1 triggerStore ["data", "value"]).log).map Prod.fst =
      [] := by
  have h := C7_trigger_leaf_scoping 0 triggerStore ["data", "value"]
    (by decide) (by decide) (by unfold subsPure; decide)
    (by unfold idsFresh; decide)
  refine ⟨by decide, by decide, by unfold subsPure; decide,
    by unfold idsFresh; decide, ?_, ?_, ?_⟩
  · rw [h.2.2 0 triggerSub0 (by decide)]
    decide
  · rw [h.2.2 1 triggerSub1 (by decide)]
    decide
  · rw [h.2.2 2 triggerSub2 (by decide)]
    decide

/- ## The external change-application pipeline -/

theorem addPath_mem_old (ps : List String) (q : String) :
    ∀ p ∈ ps, p ∈ addPath ps q := by
  intro p hp
  unfold addPath
  split
  · exact hp
  · exact List.mem_append_left _ hp

theorem addPath_mem_new (ps : List String) (q : String) : q ∈ addPath ps q := by
  unfold addPath
  split
  · next h => exact List.elem_iff.mp h
  · exact List.mem_append_right _ (List.mem_singleton.mpr rfl)

theorem applyChangesLoop_spec :
    ∀ changes st, (applyChangesLoop st changes).2 = none →
      (applyChangesLoop st changes).1.changesTx = st.changesTx ++ changes ∧
      (applyChangesLoop st changes).1.subs = st.subs ∧
      (applyChangesLoop st changes).1.changeSubs = st.changeSubs ∧
      (applyChangesLoop st changes).1.isNotifying = st.isNotifying ∧
      (applyChangesLoop st changes).1.pendingNotification = st.pendingNotification ∧
      (applyChangesLoop st changes).1.isInTransaction = st.isInTransaction ∧
      (applyChangesLoop st changes).1.nextId = st.nextId ∧
      (∀ p ∈ st.changedPathsTx, p ∈ (applyChangesLoop st changes).1.changedPathsTx) ∧
      (∀ c ∈ changes, changePath c ∈ (applyChangesLoop st changes).1.changedPathsTx) := by
  intro changes
  induction changes with
  | nil =>
      intro st hnone
      exact ⟨(List.append_nil _).symm, rfl, rfl, rfl, rfl, rfl, rfl,
        fun p hp => hp, fun c hc => absurd hc (List.not_mem_nil c)⟩
  | cons c rest ih =>
      intro st hnone
      simp only [applyChangesLoop] at hnone ⊢
      cases ha : applyOneChange st.data c with
      | error m =>
          rw [ha] at hnone
          exact Option.noConfusion hnone
      | ok d2 =>
          rw [ha] at hnone
          obtain ⟨j1, j2, j3, j4, j5, j6, j7, j8, j9⟩ := ih
            { st with data := d2,
                      changedPathsTx := addPath st.changedPathsTx (changePath c),
                      changesTx := st.changesTx ++ [c] } hnone
          refine ⟨by simpa using j1, j2, j3, j4, j5, j6, j7, ?_, ?_⟩
          · intro p hp
            exact j8 p (addPath_mem_old st.changedPathsTx (changePath c) p hp)
          · intro x hx
            rcases List.mem_cons.mp hx with hx | hx
            · subst hx
              exact j8 (changePath x)
                (addPath_mem_new st.changedPathsTx (changePath x))
            · exact j9 x hx

theorem applyChangesOp_eq (fuel : Nat) (st : StoreState) (changes : List Change)
    (h : ¬changes.length = 0) :
    applyChangesOp fuel st changes =
      txFlush fuel (applyChangesLoop (txStart st) changes).1
        (applyChangesLoop (txStart st) changes).2 := by
  unfold applyChangesOp
  rw [if_neg h]
  rfl

/-- C9: a collection-mutation record whose path does not resolve to an
array possessing the named method applies as a no-op on the data, yet the
record is still part of the single batch every change-log subscriber
receives, and its path still reaches the changed-path set of the single
notification round. -/
theorem C9_skipped_record_still_reported (f : Nat) (st : StoreState)
    (changes : List Change) (path method : String) (args : List Val)
    (hn : st.isNotifying = false) (hp : st.pendingNotification = false)
    (hpure : subsPure st) (hfresh : idsFresh st) (hok : changeSubsOk st)
    (hmem : Change.array path method args ∈ changes)
    (hloop : (applyChangesLoop (txStart st) changes).2 = none) :
    (∀ d, hasArrayMethodAt d path method = false →
      applyOneChange d (.array path method args) = .ok d) ∧
    (applyChangesOp (f + 1) st changes).err = none ∧
    (∀ j, j < st.changeSubs.length →
      batchesOf j (applyChangesOp (f + 1) st changes).log = [changes]) ∧
    ∃ ps, roundStarts (applyChangesOp (f + 1) st changes).log = [(ps, false)] ∧
      changePath (Change.array path method args) ∈ ps := by
  have hne : changes ≠ [] := fun h => by
    rw [h] at hmem
    exact absurd hmem (List.not_mem_nil _)
  have hlen : ¬changes.length = 0 := fun h => hne (List.length_eq_zero.mp h)
  obtain ⟨j1, j2, j3, j4, j5, j6, j7, j8, j9⟩ :=
    applyChangesLoop_spec changes (txStart st) hloop
  have hch : (applyChangesLoop (txStart st) changes).1.changesTx = changes := by
    rw [j1]
    simp [txStart]
  have hpin : changePath (Change.array path method args) ∈
      (applyChangesLoop (txStart st) changes).1.changedPathsTx :=
    j9 _ hmem
  have hcp : (applyChangesLoop (txStart st) changes).1.changedPathsTx ≠ [] := by
    intro hcon
    rw [hcon] at hpin
    exact absurd hpin (List.not_mem_nil _)
  have hn2 : (applyChangesLoop (txStart st) changes).1.isNotifying = false :=
    j4.trans hn
  have hp2 : (applyChangesLoop (txStart st) changes).1.pendingNotification =
      false := j5.trans hp
  have hpure2 : ∀ x ∈ (applyChangesLoop (txStart st) changes).1.subs,
      x.act = CbAct.pure := by
    rw [j2]
    exact hpure
  have hfresh2 : idsFresh (applyChangesLoop (txStart st) changes).1 := by
    intro x hx
    rw [j2] at hx
    rw [j7]
    exact hfresh x hx
  have hok2 : ∀ c ∈ (applyChangesLoop (txStart st) changes).1.changeSubs,
      c = ChangeSub.ok := by
    rw [j3]
    exact hok
  obtain ⟨t1, t2, t3, t4, t5⟩ := txFlush_run f
    (applyChangesLoop (txStart st) changes).1
    (applyChangesLoop (txStart st) changes).2
    hn2 hp2 hpure2 hfresh2 hok2 hcp (by rw [hch]; exact hne)
  refine ⟨?_, ?_, ?_, ?_⟩
  · intro d hskip
    unfold hasArrayMethodAt at hskip
    simp only [applyOneChange]
    cases hv : getValueAtPath d path with
    | varr xs =>
        rw [hv] at hskip
        have hskip2 : arrayFnProps.contains method = false := hskip
        simp only [hskip2, Bool.false_eq_true, if_false]
    | vundef => rfl
    | vnull => rfl
    | vbool b => rfl
    | vnum n => rfl
    | vstr s => rfl
    | vobj fs => rfl
    | vfun => rfl
    | vspecial t => rfl
  · rw [applyChangesOp_eq (f + 1) st changes hlen, t1, hloop]
  · intro j hj
    rw [applyChangesOp_eq (f + 1) st changes hlen, t4 j (by rw [j3]; exact hj),
      hch]
  · refine ⟨(applyChangesLoop (txStart st) changes).1.changedPathsTx, ?_, hpin⟩
    rw [applyChangesOp_eq (f + 1) st changes hlen]
    exact t3

theorem C9_skipped_record_still_reported_witness :
    hasArrayMethodAt precisionStore.data "x" "push" = false ∧
    applyOneChange precisionStore.data (.array "x" "push" [.vnum 3]) =
      .ok precisionStore.data ∧
    (applyChangesOp 1 precisionStore [.array "x" "push" [.vnum 3]]).err = none ∧
    batchesOf 0 (applyChangesOp 1 precisionStore
      [.array "x" "push" [.vnum 3]]).log = [[.array "x" "push" [.vnum 3]]] ∧
    roundStarts (applyChangesOp 1 precisionStore
      [.array "x" "push" [.vnum 3]]).log = [(["x"], false)] ∧
    (applyChangesOp 1 precisionStore
      [.array "x" "push" [.vnum 3]]).st.data = precisionStore.data := by
  have h := C9_skipped_record_still_reported 0 precisionStore
    [.array "x" "push" [.vnum 3]] "x" "push" [.vnum 3]
    (by decide) (by decide) (by unfold subsPure; decide)
    (by unfold idsFresh; decide) (by unfold changeSubsOk; decide)
    (by decide) (by decide)
  exact ⟨by decide, h.1 precisionStore.data (by decide), h.2.1,
    by decide, by decide, by decide⟩

/- ## The serializability validator -/

mutual

theorem assertSer_ok : ∀ (v : Val) (path : String), containsBad v = false →
    assertSerializable v path = .ok ()
  | .vundef, _, _ => rfl
  | .vnull, _, _ => rfl
  | .vbool _, _, _ => rfl
  | .vnum _, _, _ => rfl
  | .vstr _, _, _ => rfl
  | .vfun _, _, h => by simp [containsBad] at h
  | .vspecial ctor, path, h => by
      have hmem : ∀ t ∈ nonSerializableTypes, ¬(t = ctor) := by
        intro t ht hteq
        subst hteq
        rw [containsBad] at h
        simp at h
        exact h ht
      simp only [assertSerializable]
      rw [List.find?_eq_none.mpr (by simpa using hmem)]
  | .varr xs, path, h => by
      rw [containsBad] at h
      simp only [assertSerializable]
      exact assertSerArr_ok xs path 0 h
  | .vobj fs, path, h => by
      rw [containsBad] at h
      simp only [assertSerializable]
      exact assertSerObj_ok fs path h

theorem assertSerArr_ok : ∀ (xs : List Val) (path : String) (i : Nat),
    containsBadArr xs = false → assertSerializableArr xs path i = .ok ()
  | [], _, _, _ => rfl
  | x :: xs, path, i, h => by
      rw [containsBadArr, Bool.or_eq_false_iff] at h
      simp only [assertSerializableArr]
      rw [assertSer_ok x (extendPath path (toString i)) h.1]
      exact assertSerArr_ok xs path (i + 1) h.2

theorem assertSerObj_ok : ∀ (fs : List (String × Val)) (path : String),
    containsBadObj fs = false → assertSerializableObj fs path = .ok ()
  | [], _, _ => rfl
  | (k, v) :: fs, path, h => by
      rw [containsBadObj, Bool.or_eq_false_iff] at h
      simp only [assertSerializableObj]
      rw [assertSer_ok v (extendPath path k) h.1]
      exact assertSerObj_ok fs path h.2

end

mutual

theorem assertSer_err : ∀ (v : Val), containsBad v = true →
    ∃ steps w lbl, valAtSteps v steps = some w ∧ badLabel w = some lbl ∧
      ∀ path, assertSerializable v path =
        .error (serErrMsg lbl (renderSteps path steps))
  | .vundef, h => by simp [containsBad] at h
  | .vnull, h => by simp [containsBad] at h
  | .vbool _, h => by simp [containsBad] at h
  | .vnum _, h => by simp [containsBad] at h
  | .vstr _, h => by simp [containsBad] at h
  | .vfun f, _ => ⟨[], .vfun f, "Function", rfl, rfl, fun _ => rfl⟩
  | .vspecial ctor, h => by
      rw [containsBad] at h
      have hmem : ctor ∈ nonSerializableTypes := by simpa using h
      have hfind : nonSerializableTypes.find? (fun t => t = ctor) = some ctor := by
        cases hf : nonSerializableTypes.find? (fun t => t = ctor) with
        | none =>
            rw [List.find?_eq_none] at hf
            have hc := hf ctor hmem
            simp at hc
        | some t =>
            have ht : t = ctor := by simpa using List.find?_some hf
            rw [ht]
      refine ⟨[], .vspecial ctor, ctor, rfl, ?_, ?_⟩
      · simp only [badLabel]
        exact hfind
      · intro path
        simp only [assertSerializable]
        rw [hfind]
        rfl
  | .varr xs, h => by
      rw [containsBad] at h
      obtain ⟨j, v0, steps, w, lbl, hj, hval, hlbl, herr⟩ := assertSerArr_err xs h
      refine ⟨.idx j :: steps, w, lbl, ?_, hlbl, ?_⟩
      · simp only [valAtSteps, valAtStep, hj]
        exact hval
      · intro path
        simp only [assertSerializable]
        rw [herr path 0, Nat.zero_add]
        rfl
  | .vobj fs, h => by
      rw [containsBad] at h
      obtain ⟨j, k, v0, steps, w, lbl, hj, hval, hlbl, herr⟩ := assertSerObj_err fs h
      refine ⟨.field j k :: steps, w, lbl, ?_, hlbl, ?_⟩
      · simp only [valAtSteps, valAtStep, hj, if_pos]
        exact hval
      · intro path
        simp only [assertSerializable]
        rw [herr path]
        rfl

theorem assertSerArr_err : ∀ (xs : List Val), containsBadArr xs = true →
    ∃ j v0 steps w lbl, xs.get? j = some v0 ∧
      valAtSteps v0 steps = some w ∧ badLabel w = some lbl ∧
      ∀ path i, assertSerializableArr xs path i =
        .error (serErrMsg lbl
          (renderSteps (extendPath path (toString (i + j))) steps))
  | [], h => by simp [containsBadArr] at h
  | x :: xs, h => by
      rw [containsBadArr] at h
      by_cases hx : containsBad x = true
      · obtain ⟨steps, w, lbl, hval, hlbl, herr⟩ := assertSer_err x hx
        refine ⟨0, x, steps, w, lbl, rfl, hval, hlbl, ?_⟩
        intro path i
        simp only [assertSerializableArr]
        rw [herr (extendPath path (toString i)), Nat.add_zero]
        rfl
      · simp only [Bool.not_eq_true] at hx
        have hxs : containsBadArr xs = true := by
          rw [hx, Bool.false_or] at h
          exact h
        obtain ⟨j, v0, steps, w, lbl, hj, hval, hlbl, herr⟩ := assertSerArr_err xs hxs
        refine ⟨j + 1, v0, steps, w, lbl, by simpa using hj, hval, hlbl, ?_⟩
        intro path i
        simp only [assertSerializableArr]
        rw [assertSer_ok x (extendPath path (toString i)) hx,
          herr path (i + 1), show i + 1 + j = i + (j + 1) from by omega]

theorem assertSerObj_err : ∀ (fs : List (String × Val)), containsBadObj fs = true →
    ∃ j k v0 steps w lbl, fs.get? j = some (k, v0) ∧
      valAtSteps v0 steps = some w ∧ badLabel w = some lbl ∧
      ∀ path, assertSerializableObj fs path =
        .error (serErrMsg lbl (renderSteps (extendPath path k) steps))
  | [], h => by simp [containsBadObj] at h
  | (k, v) :: fs, h => by
      rw [containsBadObj] at h
      by_cases hv : containsBad v = true
      · obtain ⟨steps, w, lbl, hval, hlbl, herr⟩ := assertSer_err v hv
        refine ⟨0, k, v, steps, w, lbl, rfl, hval, hlbl, ?_⟩
        intro path
        simp only [assertSerializableObj]
        rw [herr (extendPath path k)]
      · simp only [Bool.not_eq_true] at hv
        have hfs : containsBadObj fs = true := by
          rw [hv, Bool.false_or] at h
          exact h
        obtain ⟨j, k2, v0, steps, w, lbl, hj, hval, hlbl, herr⟩ := assertSerObj_err fs hfs
        refine ⟨j + 1, k2, v0, steps, w, lbl, by simpa using hj, hval, hlbl, ?_⟩
        intro path
        simp only [assertSerializableObj]
        rw [assertSer_ok v (extendPath path k) hv, herr path]

end

/-- C8: a value containing, at any depth, a function or a deny-listed class
instance is rejected both by `createStore` and by an assignment through the
mutating proxy; the error names the offending runtime-type label and the
dotted path of the offending sub-value, and the trap returns with the state
untouched and no subscriber activity (validation runs before mutation). -/
theorem C8_nonserializable_rejected (fuel : Nat) (st : StoreState)
    (parent : List String) (prop : String) (v : Val)
    (hbad : containsBad v = true) :
    ∃ steps w lbl,
      valAtSteps v steps = some w ∧ badLabel w = some lbl ∧
      createStore (some v) = .error (serErrMsg lbl (renderSteps "root" steps)) ∧
      setTrap fuel st parent prop v =
        ⟨st, [], some (serErrMsg lbl
          (renderSteps (renderPath (parent ++ [prop])) steps))⟩ := by
  obtain ⟨steps, w, lbl, hval, hlbl, herr⟩ := assertSer_err v hbad
  refine ⟨steps, w, lbl, hval, hlbl, ?_, ?_⟩
  · simp only [createStore]
    rw [herr "root"]
  · simp only [setTrap]
    rw [herr (renderPath (parent ++ [prop]))]

theorem C8_nonserializable_rejected_witness :
    containsBad (Val.vobj [("a", .vspecial "Date")]) = true ∧
    ∃ steps w lbl,
      valAtSteps (Val.vobj [("a", .vspecial "Date")]) steps = some w ∧
      badLabel w = some lbl ∧
      createStore (some (Val.vobj [("a", .vspecial "Date")])) =
        .error (serErrMsg lbl (renderSteps "root" steps)) ∧
      setTrap 1 precisionStore [] "z" (Val.vobj [("a", .vspecial "Date")]) =
        ⟨precisionStore, [], some (serErrMsg lbl
          (renderSteps (renderPath ([] ++ ["z"])) steps))⟩ :=
  ⟨by decide, C8_nonserializable_rejected 1 precisionStore [] "z"
    (Val.vobj [("a", .vspecial "Date")]) (by decide)⟩

/- ## Algebra of in-place updates (for the rollback analysis) -/

theorem getKey_setKey_self : ∀ (fs : List (String × Val)) (q : String) (w : Val),
    getKey (setKey fs q w) q = some w
  | [], q, w => by simp [setKey, getKey]
  | (k, v) :: fs, q, w => by
      by_cases hk : k = q
      · simp [setKey, getKey, hk]
      · simp [setKey, getKey, hk, getKey_setKey_self fs q w]

theorem setKey_setKey : ∀ (fs : List (String × Val)) (q : String) (a b : Val),
    setKey (setKey fs q a) q b = setKey fs q b
  | [], q, a, b => by simp [setKey]
  | (k, v) :: fs, q, a, b => by
      by_cases hk : k = q
      · simp [setKey, hk]
      · simp [setKey, hk, setKey_setKey fs q a b]

theorem setKey_getKey_self : ∀ (fs : List (String × Val)) (q : String) (c : Val),
    getKey fs q = some c → setKey fs q c = fs
  | [], q, c => by simp [getKey]
  | (k, v) :: fs, q, c => by
      by_cases hk : k = q
      · simp [getKey, setKey, hk]
        intro h
        exact h.symm
      · simp [getKey, setKey, hk]
        exact setKey_getKey_self fs q c

theorem setKey_absent : ∀ (fs : List (String × Val)) (q : String) (v : Val),
    getKey fs q = none → setKey fs q v = fs ++ [(q, v)]
  | [], q, v => by simp [setKey]
  | (k, w) :: fs, q, v => by
      by_cases hk : k = q
      · simp [getKey, hk]
      · simp [getKey, setKey, hk]
        exact setKey_absent fs q v

theorem getKey_eq_none_of_not_mem :
    ∀ (fs : List (String × Val)) (q : String), q ∉ fs.map Prod.fst →
      getKey fs q = none
  | [], _, _ => rfl
  | (k, v) :: fs, q, h => by
      simp only [List.map_cons, List.mem_cons] at h
      push_neg at h
      have hk : ¬(k = q) := fun hkq => h.1 hkq.symm
      simp only [getKey, if_neg hk]
      exact getKey_eq_none_of_not_mem fs q h.2

theorem getKey_delKey_self :
    ∀ (fs : List (String × Val)) (q : String), (fs.map Prod.fst).Nodup →
      getKey (delKey fs q) q = none
  | [], _, _ => rfl
  | (k, v) :: fs, q, h => by
      simp only [List.map_cons, List.nodup_cons] at h
      by_cases hk : k = q
      · subst hk
        simp only [delKey, if_pos rfl]
        exact getKey_eq_none_of_not_mem fs k h.1
      · simp only [delKey, if_neg hk, getKey, if_neg hk]
        exact getKey_delKey_self fs q h.2

theorem set_get_self : ∀ (xs : List Val) (i : Nat) (c : Val),
    xs.get? i = some c → xs.set i c = xs
  | [], i, c => by simp
  | x :: xs, 0, c => fun h => by
      have hx : x = c := Option.some.inj h
      show c :: xs = x :: xs
      rw [hx]
  | x :: xs, i + 1, c => fun h => by
      show x :: xs.set i c = x :: xs
      rw [set_get_self xs i c h]

theorem updateAt_updateAt : ∀ (segs : List String) (d : Val) (f g : Val → Val),
    updateAt (updateAt d segs f) segs g = updateAt d segs fun x => g (f x)
  | [], d, f, g => rfl
  | seg :: rest, d, f, g => by
      cases d with
      | vobj fs =>
          cases hk : getKey fs seg with
          | none => simp only [updateAt, hk]
          | some c =>
              simp only [updateAt, hk, getKey_setKey_self, setKey_setKey,
                updateAt_updateAt rest c f g]
      | varr xs =>
          cases hi : arrayIndex? seg with
          | none => simp only [updateAt, hi]
          | some i =>
              cases hc : xs.get? i with
              | none => simp only [updateAt, hi, hc]
              | some c =>
                  have hlt : i < xs.length := by
                    by_contra hcon
                    push_neg at hcon
                    rw [List.get?_eq_getElem?, List.getElem?_eq_none hcon] at hc
                    exact Option.noConfusion hc
                  simp only [updateAt, hi, hc, List.get?_eq_getElem?,
                    List.getElem?_set_self hlt, List.set_set,
                    updateAt_updateAt rest c f g]
      | vundef => rfl
      | vnull => rfl
      | vbool b => rfl
      | vnum n => rfl
      | vstr s => rfl
      | vfun n => rfl
      | vspecial t => rfl

theorem updateAt_congr : ∀ (segs : List String) (d : Val) (f g : Val → Val),
    f (getValueAtSegs d segs) = g (getValueAtSegs d segs) →
    updateAt d segs f = updateAt d segs g
  | [], d, f, g, h => h
  | seg :: rest, d, f, g, h => by
      cases d with
      | vobj fs =>
          cases hk : getKey fs seg with
          | none => simp only [updateAt, hk]
          | some c =>
              have hch : getValueAtSegs (Val.vobj fs) (seg :: rest) =
                  getValueAtSegs c rest := by
                simp only [getValueAtSegs, jsGet, hk, Option.getD]
              rw [hch] at h
              simp only [updateAt, hk, updateAt_congr rest c f g h]
      | varr xs =>
          cases hi : arrayIndex? seg with
          | none => simp only [updateAt, hi]
          | some i =>
              cases hc : xs.get? i with
              | none => simp only [updateAt, hi, hc]
              | some c =>
                  have hch : getValueAtSegs (Val.varr xs) (seg :: rest) =
                      getValueAtSegs c rest := by
                    simp only [getValueAtSegs, jsGet, hi, hc, Option.getD]
                  rw [hch] at h
                  simp only [updateAt, hi, hc, updateAt_congr rest c f g h]
      | vundef => rfl
      | vnull => rfl
      | vbool b => rfl
      | vnum n => rfl
      | vstr s => rfl
      | vfun n => rfl
      | vspecial t => rfl

theorem updateAt_id : ∀ (segs : List String) (d : Val),
    updateAt d segs (fun x => x) = d
  | [], d => rfl
  | seg :: rest, d => by
      cases d with
      | vobj fs =>
          cases hk : getKey fs seg with
          | none => simp only [updateAt, hk]
          | some c =>
              simp only [updateAt, hk, updateAt_id rest c]
              rw [setKey_getKey_self fs seg c hk]
      | varr xs =>
          cases hi : arrayIndex? seg with
          | none => simp only [updateAt, hi]
          | some i =>
              cases hc : xs.get? i with
              | none => simp only [updateAt, hi, hc]
              | some c =>
                  simp only [updateAt, hi, hc, updateAt_id rest c]
                  rw [set_get_self xs i c hc]
      | vundef => rfl
      | vnull => rfl
      | vbool b => rfl
      | vnum n => rfl
      | vstr s => rfl
      | vfun n => rfl
      | vspecial t => rfl

/- ## Rounds over non-writing (pure or throwing) observers -/

theorem nonwriting_preserved_set (st : StoreState) (i : Nat) (sub : Sub)
    (nps : List String) (nv : Val) (nid : Nat) (b : Bool)
    (hnw : ∀ x ∈ st.subs, actNonWriting x.act = true)
    (hg : st.subs.get? i = some sub) :
    ∀ x ∈ st.subs.set i (reevalSub sub nps nv nid b),
      actNonWriting x.act = true := by
  intro x hx
  rcases List.mem_or_eq_of_mem_set hx with hx | hx
  · exact hnw x hx
  · rw [hx, reevalSub_act]
    exact hnw sub (List.get?_mem hg)

theorem notifyLoop_nonwriting (ps : List String) (b : Bool) :
    ∀ rem i st, (∀ x ∈ st.subs, actNonWriting x.act = true) →
      (notifyLoop ps b i rem st).st.data = st.data ∧
      ∀ x ∈ (notifyLoop ps b i rem st).st.subs, actNonWriting x.act = true := by
  intro rem
  induction rem with
  | zero => intro i st hnw; exact ⟨rfl, hnw⟩
  | succ rem ih =>
      intro i st hnw
      simp only [notifyLoop]
      cases hg : st.subs.get? i with
      | none => exact ⟨rfl, hnw⟩
      | some sub =>
          have hnwi : actNonWriting sub.act = true := hnw sub (List.get?_mem hg)
          simp only [hg]
          by_cases hsn : shouldNotifyB ps b sub
          · by_cases hf : firesB b sub (trackSelector st.data sub.selPath).2 st.nextId
            · have hp2 := nonwriting_preserved_set st i sub
                (trackSelector st.data sub.selPath).1
                (trackSelector st.data sub.selPath).2 st.nextId true hnw hg
              cases hact : sub.act with
              | writeProp p q v =>
                  rw [hact] at hnwi
                  simp [actNonWriting] at hnwi
              | pure =>
                  simp only [hsn, hf, if_true, if_pos, hact, runCallback]
                  obtain ⟨g1, g2⟩ := ih (i + 1)
                    { st with nextId := st.nextId + 1,
                              subs := st.subs.set i (reevalSub sub
                                (trackSelector st.data sub.selPath).1
                                (trackSelector st.data sub.selPath).2 st.nextId
                                true) }
                    (by simpa using hp2)
                  exact ⟨by simpa using g1, by simpa using g2⟩
              | throws m =>
                  simp only [hsn, hf, if_true, if_pos, hact, runCallback]
                  exact ⟨trivial, by simpa using hp2⟩
            · have hp2 := nonwriting_preserved_set st i sub
                (trackSelector st.data sub.selPath).1
                (trackSelector st.data sub.selPath).2 st.nextId false hnw hg
              simp only [hsn, hf, if_true, if_pos, Bool.false_eq_true, if_neg,
                if_false]
              obtain ⟨g1, g2⟩ := ih (i + 1)
                { st with nextId := st.nextId + 1,
                          subs := st.subs.set i (reevalSub sub
                            (trackSelector st.data sub.selPath).1
                            (trackSelector st.data sub.selPath).2 st.nextId
                            false) }
                (by simpa using hp2)
              exact ⟨by simpa using g1, by simpa using g2⟩
          · simp only [hsn, Bool.false_eq_true, if_false]
            exact ih (i + 1) st hnw

theorem notifySubscribers_nonwriting (fuel : Nat) :
    ∀ st ps b, (∀ x ∈ st.subs, actNonWriting x.act = true) →
      (notifySubscribers fuel st ps b).st.data = st.data ∧
      ∀ x ∈ (notifySubscribers fuel st ps b).st.subs,
        actNonWriting x.act = true := by
  induction fuel with
  | zero =>
      intro st ps b hnw
      unfold notifySubscribers
      by_cases hn : st.isNotifying
      · simp only [hn, if_pos]
        exact ⟨trivial, hnw⟩
      · simp only [hn, Bool.false_eq_true, if_false]
        exact ⟨trivial, hnw⟩
  | succ f ih =>
      intro st ps b hnw
      unfold notifySubscribers
      by_cases hn : st.isNotifying
      · simp only [hn, if_pos]
        exact ⟨trivial, hnw⟩
      · simp only [hn, Bool.false_eq_true, if_false]
        obtain ⟨g1, g2⟩ := notifyLoop_nonwriting ps b st.subs.length 0
          { st with isNotifying := true } (by simpa using hnw)
        by_cases hp : (notifyLoop ps b 0 st.subs.length
            { st with isNotifying := true }).st.pendingNotification
        · simp only [hp, if_pos]
          obtain ⟨h1, h2⟩ := ih
            { (notifyLoop ps b 0 st.subs.length
                { st with isNotifying := true }).st with
              isNotifying := false, pendingNotification := false } ps b
            (by simpa using g2)
          refine ⟨h1.trans (by simpa using g1), by simpa using h2⟩
        · simp only [hp, Bool.false_eq_true, if_false]
          exact ⟨by simpa using g1, by simpa using g2⟩

theorem ncs_throws (msg : String) (rest : List ChangeSub) (batch : List Change)
    (hne : batch ≠ []) :
    notifyChangeSubscribers (ChangeSub.throws msg :: rest) batch =
      ([Ev.changeCb 0 batch], some msg) := by
  unfold notifyChangeSubscribers
  rw [if_neg (fun h => hne (List.length_eq_zero.mp h))]
  rfl

/-- C1 (corrected): a standalone write whose value passed validation but
which returns an error — because some change-log subscriber or some
(non-writing) observer callback threw during the resulting notification —
has the written location rolled back before the error reaches the caller;
an assignment over an existing property and an array mutation restore the
backing data byte-for-byte, but a rolled-back fresh-property assignment
leaves the key present with value `undefined`, and a rolled-back deletion
re-inserts the key at the end of the object — both observably different
trees. -/
theorem C1_standalone_rollback (fuel : Nat) (st : StoreState)
    (htx : st.isInTransaction = false) (hnw : subsNonWriting st) :
    (∀ parent prop value fs w e,
        getValueAtSegs st.data parent = .vobj fs →
        getKey fs prop = some w →
        containsBad value = false →
        (setTrap fuel st parent prop value).err = some e →
        (setTrap fuel st parent prop value).st.data = st.data) ∧
    (∀ parent prop value fs e,
        getValueAtSegs st.data parent = .vobj fs →
        getKey fs prop = none →
        containsBad value = false →
        (setTrap fuel st parent prop value).err = some e →
        (setTrap fuel st parent prop value).st.data =
          updateAt st.data parent fun _ => .vobj (fs ++ [(prop, .vundef)])) ∧
    (∀ parent prop fs w e,
        getValueAtSegs st.data parent = .vobj fs →
        (fs.map Prod.fst).Nodup →
        getKey fs prop = some w →
        (deleteTrap fuel st parent prop).err = some e →
        (deleteTrap fuel st parent prop).st.data =
          updateAt st.data parent fun _ => .vobj (delKey fs prop ++ [(prop, w)])) ∧
    (∀ segs method args xs e,
        getValueAtSegs st.data segs = .varr xs →
        assertArgsSerializable (renderPath segs) method args 0 = none →
        (arrayMutTrap fuel st segs method args).err = some e →
        (arrayMutTrap fuel st segs method args).st.data = st.data) := by
  refine ⟨?_, ?_, ?_, ?_⟩
  · intro parent prop value fs w e hnode hkey hser herr
    have hok := assertSer_ok value (renderPath (parent ++ [prop])) hser
    have halg : updateAt
        (updateAt st.data parent fun node => jsSetProp node prop value)
        parent (fun node => jsSetProp node prop
          (jsGet (getValueAtSegs st.data parent) prop)) = st.data := by
      rw [updateAt_updateAt]
      have hcomp : jsSetProp
          (jsSetProp (getValueAtSegs st.data parent) prop value)
          prop (jsGet (getValueAtSegs st.data parent) prop) =
          getValueAtSegs st.data parent := by
        rw [hnode]
        simp only [jsGet, hkey, Option.getD, jsSetProp]
        rw [setKey_setKey, setKey_getKey_self fs prop w hkey]
      rw [updateAt_congr parent st.data _ (fun x => x) (by simpa using hcomp),
        updateAt_id]
    simp only [setTrap, hok, htx, Bool.false_eq_true, if_false] at herr ⊢
    revert herr
    cases hrc : (notifyChangeSubscribers st.changeSubs
        [Change.property (renderPath (parent ++ [prop])) value]).2 with
    | some m =>
        intro herr
        exact halg
    | none =>
        cases hrn : (notifySubscribers fuel
            { st with
              data := updateAt st.data parent fun node => jsSetProp node prop value,
              isInTransaction := false }
            [renderPath (parent ++ [prop])] false).err with
        | none =>
            intro herr
            exact Option.noConfusion herr
        | some m =>
            intro herr
            have hdata := (notifySubscribers_nonwriting fuel
              { st with
                data := updateAt st.data parent fun node => jsSetProp node prop value,
                isInTransaction := false }
              [renderPath (parent ++ [prop])] false (by simpa using hnw)).1
            rw [hdata]
            exact halg
  · intro parent prop value fs e hnode hkey hser herr
    have hok := assertSer_ok value (renderPath (parent ++ [prop])) hser
    have halg : updateAt
        (updateAt st.data parent fun node => jsSetProp node prop value)
        parent (fun node => jsSetProp node prop
          (jsGet (getValueAtSegs st.data parent) prop)) =
        updateAt st.data parent fun _ => .vobj (fs ++ [(prop, .vundef)]) := by
      rw [updateAt_updateAt]
      have hcomp : jsSetProp
          (jsSetProp (getValueAtSegs st.data parent) prop value)
          prop (jsGet (getValueAtSegs st.data parent) prop) =
          .vobj (fs ++ [(prop, .vundef)]) := by
        rw [hnode]
        simp only [jsGet, hkey, Option.getD, jsSetProp]
        rw [setKey_setKey, setKey_absent fs prop .vundef hkey]
      exact updateAt_congr parent st.data _ _ (by simpa using hcomp)
    simp only [setTrap, hok, htx, Bool.false_eq_true, if_false] at herr ⊢
    revert herr
    cases hrc : (notifyChangeSubscribers st.changeSubs
        [Change.property (renderPath (parent ++ [prop])) value]).2 with
    | some m =>
        intro herr
        exact halg
    | none =>
        cases hrn : (notifySubscribers fuel
            { st with
              data := updateAt st.data parent fun node => jsSetProp node prop value,
              isInTransaction := false }
            [renderPath (parent ++ [prop])] false).err with
        | none =>
            intro herr
            exact Option.noConfusion herr
        | some m =>
            intro herr
            have hdata := (notifySubscribers_nonwriting fuel
              { st with
                data := updateAt st.data parent fun node => jsSetProp node prop value,
                isInTransaction := false }
              [renderPath (parent ++ [prop])] false (by simpa using hnw)).1
            rw [hdata]
            exact halg
  · intro parent prop fs w e hnode hnodup hkey herr
    have hhas : jsHasProp (getValueAtSegs st.data parent) prop = true := by
      rw [hnode]
      simp [jsHasProp, hkey]
    have halg : updateAt
        (updateAt st.data parent fun n => jsDeleteProp n prop)
        parent (fun n => jsSetProp n prop
          (jsGet (getValueAtSegs st.data parent) prop)) =
        updateAt st.data parent fun _ => .vobj (delKey fs prop ++ [(prop, w)]) := by
      rw [updateAt_updateAt]
      have hcomp : jsSetProp (jsDeleteProp (getValueAtSegs st.data parent) prop)
          prop (jsGet (getValueAtSegs st.data parent) prop) =
          .vobj (delKey fs prop ++ [(prop, w)]) := by
        rw [hnode]
        simp only [jsGet, hkey, Option.getD, jsDeleteProp, jsSetProp]
        rw [setKey_absent _ prop w (getKey_delKey_self fs prop hnodup)]
      exact updateAt_congr parent st.data _ _ (by simpa using hcomp)
    simp only [deleteTrap, hhas, if_pos, htx, Bool.false_eq_true, if_false]
      at herr ⊢
    revert herr
    cases hrc : (notifyChangeSubscribers st.changeSubs
        [Change.property (renderPath (parent ++ [prop])) .vundef]).2 with
    | some m =>
        intro herr
        exact halg
    | none =>
        cases hrn : (notifySubscribers fuel
            { st with
              data := updateAt st.data parent fun n => jsDeleteProp n prop,
              isInTransaction := false }
            [renderPath (parent ++ [prop])] false).err with
        | none =>
            intro herr
            exact Option.noConfusion herr
        | some m =>
            intro herr
            have hdata := (notifySubscribers_nonwriting fuel
              { st with
                data := updateAt st.data parent fun n => jsDeleteProp n prop,
                isInTransaction := false }
              [renderPath (parent ++ [prop])] false (by simpa using hnw)).1
            rw [hdata]
            exact halg
  · intro segs method args xs e hnode hargs herr
    have halg : updateAt
        (updateAt st.data segs fun _ =>
          Val.varr (applyNativeArray method xs args).1)
        segs (fun _ => Val.varr xs) = st.data := by
      rw [updateAt_updateAt]
      rw [updateAt_congr segs st.data _ (fun x => x) (by rw [hnode]),
        updateAt_id]
    simp only [arrayMutTrap, hargs, hnode, htx, Bool.false_eq_true, if_false]
      at herr ⊢
    revert herr
    cases hrc : (notifyChangeSubscribers st.changeSubs
        [Change.array (renderPath segs) method args]).2 with
    | some m =>
        intro herr
        exact halg
    | none =>
        cases hrn : (notifySubscribers fuel
            { st with
              data := updateAt st.data segs fun _ =>
                Val.varr (applyNativeArray method xs args).1,
              isInTransaction := false }
            [renderPath segs] false).err with
        | none =>
            intro herr
            exact Option.noConfusion herr
        | some m =>
            intro herr
            have hdata := (notifySubscribers_nonwriting fuel
              { st with
                data := updateAt st.data segs fun _ =>
                  Val.varr (applyNativeArray method xs args).1,
                isInTransaction := false }
              [renderPath segs] false (by simpa using hnw)).1
            rw [hdata]
            exact halg

theorem C1_standalone_rollback_witness :
    rollbackStore.isInTransaction = false ∧
    subsNonWriting rollbackStore ∧
    throwObsStore.isInTransaction = false ∧
    subsNonWriting throwObsStore ∧
    ((setTrap 1 rollbackStore [] "a" (.vnum 9)).err = some "boom" ∧
     (setTrap 1 rollbackStore [] "a" (.vnum 9)).st.data = rollbackStore.data) ∧
    ((setTrap 1 rollbackStore [] "c" (.vnum 3)).err = some "boom" ∧
     (setTrap 1 rollbackStore [] "c" (.vnum 3)).st.data =
       updateAt rollbackStore.data [] fun _ =>
         .vobj ([("a", .vnum 1), ("b", .vnum 2), ("arr", .varr [.vnum 1])] ++
           [("c", .vundef)])) ∧
    ((deleteTrap 1 rollbackStore [] "a").err = some "boom" ∧
     (deleteTrap 1 rollbackStore [] "a").st.data =
       updateAt rollbackStore.data [] fun _ =>
         .vobj (delKey [("a", .vnum 1), ("b", .vnum 2), ("arr", .varr [.vnum 1])]
           "a" ++ [("a", .vnum 1)])) ∧
    ((arrayMutTrap 1 rollbackStore ["arr"] "push" [.vnum 2]).err = some "boom" ∧
     (arrayMutTrap 1 rollbackStore ["arr"] "push" [.vnum 2]).st.data =
       rollbackStore.data) ∧
    ((setTrap 1 throwObsStore [] "a" (.vnum 9)).err = some "obsboom" ∧
     (setTrap 1 throwObsStore [] "a" (.vnum 9)).st.data = throwObsStore.data) := by
  have h := C1_standalone_rollback 1 rollbackStore (by decide)
    (by unfold subsNonWriting; decide)
  have h2 := C1_standalone_rollback 1 throwObsStore (by decide)
    (by unfold subsNonWriting; decide)
  refine ⟨by decide, by unfold subsNonWriting; decide, by decide,
    by unfold subsNonWriting; decide, ⟨by decide, ?_⟩, ⟨by decide, ?_⟩,
    ⟨by decide, ?_⟩, ⟨by decide, ?_⟩, ⟨by decide, ?_⟩⟩
  · exact h.1 [] "a" (.vnum 9)
      [("a", .vnum 1), ("b", .vnum 2), ("arr", .varr [.vnum 1])] (.vnum 1) "boom"
      (by decide) (by decide) (by decide) (by decide)
  · exact h.2.1 [] "c" (.vnum 3)
      [("a", .vnum 1), ("b", .vnum 2), ("arr", .varr [.vnum 1])] "boom"
      (by decide) (by decide) (by decide) (by decide)
  · exact h.2.2.1 [] "a"
      [("a", .vnum 1), ("b", .vnum 2), ("arr", .varr [.vnum 1])] (.vnum 1) "boom"
      (by decide) (by decide) (by decide) (by decide)
  · exact h.2.2.2 ["arr"] "push" [.vnum 2] [.vnum 1] "boom"
      (by decide) (by decide) (by decide)
  · exact h2.1 [] "a" (.vnum 9) [("a", .vnum 1), ("b", .vnum 2)] (.vnum 1)
      "obsboom" (by decide) (by decide) (by decide) (by decide)

/-- A rolled-back deletion re-inserts the key at the end of the object, and
a rolled-back fresh-property assignment leaves the key present with value
`undefined`: the JSON rendering of the "restored" tree differs from the
original in both cases, refuting "restored byte-for-byte". -/
theorem C1_counterexample :
    (deleteTrap 1 rollbackStore [] "a").err = some "boom" ∧
    jsonStringify (deleteTrap 1 rollbackStore [] "a").st.data ≠
      jsonStringify rollbackStore.data ∧
    (setTrap 1 rollbackStore [] "c" (.vnum 3)).err = some "boom" ∧
    (setTrap 1 rollbackStore [] "c" (.vnum 3)).st.data ≠ rollbackStore.data ∧
    jsHasProp (setTrap 1 rollbackStore [] "c" (.vnum 3)).st.data "c" = true ∧
    jsHasProp rollbackStore.data "c" = false := by
  decide

end PulsarStore
